import Mathlib

/-!
Shallow embedding of the music-transcription pipeline's deterministic core
(chord post-processing, note segmentation, chunk merging, progress tracking,
job scheduling, and the pipeline failure path), together with theorems
settling the specification claims about it.

Times, confidences and sample values are modelled as rationals: on the inputs
considered here the Python float operations are exact comparisons, additions
and subtractions of decimal literals, which the rational model reproduces.
-/

/-- If adjacent elements satisfy `g a ≤ f b` and every element satisfies
`f x ≤ g x`, the relation `g a ≤ f b` holds for every (not necessarily
adjacent) ordered pair: intervals `[f x, g x)` listed end-to-start are
pairwise disjoint. -/
lemma chain'_le_pairwise {α : Type} (f g : α → ℚ) :
    ∀ l : List α, List.Chain' (fun a b => g a ≤ f b) l →
    (∀ x ∈ l, f x ≤ g x) → List.Pairwise (fun a b => g a ≤ f b) l := by
  have key : ∀ (l : List α) (a : α), List.Chain' (fun a b => g a ≤ f b) (a :: l) →
      (∀ x ∈ l, f x ≤ g x) → ∀ b ∈ l, g a ≤ f b := by
    intro l
    induction l with
    | nil => intro a _ _ b hb; exact absurd hb (List.not_mem_nil b)
    | cons c l ih =>
      intro a hchain hle b hb
      have hac : g a ≤ f c := (List.chain'_cons.1 hchain).1
      rcases List.mem_cons.1 hb with hb | hb
      · subst hb; exact hac
      · have hc : g c ≤ f b := ih c (List.chain'_cons.1 hchain).2
          (fun x hx => hle x (List.mem_cons_of_mem c hx)) b hb
        exact le_trans hac (le_trans (hle c (List.mem_cons_self c l)) hc)
  intro l
  induction l with
  | nil => intro _ _; exact List.Pairwise.nil
  | cons a l ih =>
    intro hchain hle
    refine List.pairwise_cons.2 ⟨key l a hchain
      (fun x hx => hle x (List.mem_cons_of_mem a hx)), ?_⟩
    exact ih (List.chain'_cons'.1 hchain).2 (fun x hx => hle x (List.mem_cons_of_mem a hx))

namespace ChordPP

/-- `ChordEvent` from `src/chord_detection/models.py`: a labelled chord span
with a confidence and decomposed root/quality/bass strings. -/
structure ChordEvent where
  start_time : ℚ
  end_time : ℚ
  chord_label : String
  confidence : ℚ := 0
  root : String := ""
  quality : String := ""
  bass : String := ""
  deriving Repr, DecidableEq, Inhabited

/-- `ChordEvent.duration` property: `end_time - start_time`. -/
def ChordEvent.duration (c : ChordEvent) : ℚ := c.end_time - c.start_time

/-- The fields of `ChordDetectionConfig` (`src/chord_detection/config.py`)
consumed by `ChordPostProcessor`. -/
structure ChordDetectionConfig where
  min_chord_duration_ms : ℤ := 100
  smooth_chords : Bool := true
  filter_low_confidence : ℚ := 3/10
  deriving Repr, DecidableEq

/-- A raw prediction `(time, label, confidence)`. -/
structure RawPred where
  time : ℚ
  label : String
  conf : ℚ
  deriving Repr, DecidableEq

/-- Loop body of `ChordPostProcessor._convert_to_events`: `current_chord` and
`start_time` are the loop's accumulator; `last_t`/`last_c` track the most
recently consumed prediction, from which the trailing event is built
(`predictions[-1]` in the source). On a label change the event emitted takes
the changing frame's time as its end and that frame's confidence. -/
def convertAux (current_chord : String) (start_time last_t last_c : ℚ) :
    List RawPred → List ChordEvent
  | [] => [{ start_time := start_time, end_time := last_t,
             chord_label := current_chord, confidence := last_c }]
  | p :: rest =>
    if p.label = current_chord then
      convertAux current_chord start_time p.time p.conf rest
    else
      { start_time := start_time, end_time := p.time,
        chord_label := current_chord, confidence := p.conf }
        :: convertAux p.label p.time p.time p.conf rest

/-- `ChordPostProcessor._convert_to_events`: run-length encodes the
prediction stream into `ChordEvent`s. -/
def convert_to_events : List RawPred → List ChordEvent
  | [] => []
  | p :: rest => convertAux p.label p.time p.time p.conf rest

/-- `ChordPostProcessor._filter_by_confidence`. -/
def filter_by_confidence (cfg : ChordDetectionConfig) (chords : List ChordEvent) :
    List ChordEvent :=
  chords.filter (fun c => cfg.filter_low_confidence ≤ c.confidence)

/-- `ChordPostProcessor._smooth_chords`: drop an interior event shorter than
0.2 s whose neighbours share a label different from its own.  The Python loop
examines `chords[i-1]`, `chords[i]`, `chords[i+1]` on the input list (the
`smoothed` accumulator is not consulted), so it is a positional filter. -/
def smooth_chords (chords : List ChordEvent) : List ChordEvent :=
  if chords.length < 3 then chords
  else
    (List.range chords.length).filterMap (fun i =>
      let curr := chords.getD i default
      if i = 0 ∨ i = chords.length - 1 then some curr
      else
        let prev := chords.getD (i - 1) default
        let next := chords.getD (i + 1) default
        if curr.duration < 1/5 ∧ prev.chord_label = next.chord_label ∧
            curr.chord_label ≠ prev.chord_label then none
        else some curr)

/-- Loop body of `ChordPostProcessor._merge_consecutive`: `merged[-1]` is the
`cur` accumulator; a same-label successor extends its end and takes the max
confidence. -/
def mergeAux (cur : ChordEvent) : List ChordEvent → List ChordEvent
  | [] => [cur]
  | c :: rest =>
    if c.chord_label = cur.chord_label then
      mergeAux { cur with end_time := c.end_time,
                          confidence := max cur.confidence c.confidence } rest
    else
      cur :: mergeAux c rest

/-- `ChordPostProcessor._merge_consecutive`. -/
def merge_consecutive : List ChordEvent → List ChordEvent
  | [] => []
  | c :: rest => mergeAux c rest

/-- `ChordPostProcessor._filter_short_chords`: keep events whose duration is
at least `min_chord_duration_ms / 1000` seconds. -/
def filter_short_chords (cfg : ChordDetectionConfig) (chords : List ChordEvent) :
    List ChordEvent :=
  chords.filter (fun c => (cfg.min_chord_duration_ms : ℚ) / 1000 ≤ c.duration)

/-- `ChordPostProcessor.process`: the full post-processing pipeline in the
source's fixed order. -/
def process (cfg : ChordDetectionConfig) (raw_predictions : List RawPred) :
    List ChordEvent :=
  if raw_predictions.isEmpty then []
  else
    let chords := convert_to_events raw_predictions
    let chords := if 0 < cfg.filter_low_confidence then
        filter_by_confidence cfg chords else chords
    let chords := if cfg.smooth_chords then smooth_chords chords else chords
    let chords := merge_consecutive chords
    filter_short_chords cfg chords

/-- The C2/C3 scenario configuration: 1.5 s minimum chord duration, smoothing
disabled, confidence filtering disabled. -/
def scenarioConfig : ChordDetectionConfig :=
  { min_chord_duration_ms := 1500, smooth_chords := false,
    filter_low_confidence := 0 }

/-- The raw predictions of the spec's scenario:
`[(0,"C",0.9),(1,"C",0.8),(2,"G",0.9),(3,"G",0.9),(4,"G",0.9)]`. -/
def scenarioPreds : List RawPred :=
  [⟨0, "C", 9/10⟩, ⟨1, "C", 8/10⟩, ⟨2, "G", 9/10⟩, ⟨3, "G", 9/10⟩, ⟨4, "G", 9/10⟩]

/-- A prediction stream whose middle chord is shorter than the minimum
duration: `[(0,"C",0.9),(1,"G",0.9),(3,"C",0.9)]`. -/
def gapPreds : List RawPred :=
  [⟨0, "C", 9/10⟩, ⟨1, "G", 9/10⟩, ⟨3, "C", 9/10⟩]

/-- `mergeAux cur rest` is a cons whose head carries `cur`'s label and start
time. -/
theorem mergeAux_cons (rest : List ChordEvent) : ∀ cur : ChordEvent,
    ∃ d rest', mergeAux cur rest = d :: rest' ∧
      d.chord_label = cur.chord_label ∧ d.start_time = cur.start_time := by
  induction rest with
  | nil => intro cur; exact ⟨cur, [], rfl, rfl, rfl⟩
  | cons c rest ih =>
    intro cur
    by_cases h : c.chord_label = cur.chord_label
    · obtain ⟨d, rest', hd, hl, hs⟩ :=
        ih { cur with end_time := c.end_time,
                      confidence := max cur.confidence c.confidence }
      exact ⟨d, rest', by simp [mergeAux, h, hd], hl, hs⟩
    · exact ⟨cur, mergeAux c rest, by simp [mergeAux, h], rfl, rfl⟩

/-- The output of `mergeAux` has no two adjacent events with equal labels. -/
theorem mergeAux_chain_ne (rest : List ChordEvent) : ∀ cur : ChordEvent,
    List.Chain' (fun a b => a.chord_label ≠ b.chord_label) (mergeAux cur rest) := by
  induction rest with
  | nil => intro cur; simp [mergeAux]
  | cons c rest ih =>
    intro cur
    by_cases h : c.chord_label = cur.chord_label
    · simpa [mergeAux, h] using
        ih { cur with end_time := c.end_time,
                      confidence := max cur.confidence c.confidence }
    · obtain ⟨d, rest', hd, hl, _⟩ := mergeAux_cons rest c
      rw [mergeAux, if_neg h]
      refine List.chain'_cons'.2 ⟨?_, ih c⟩
      intro y hy
      rw [hd] at hy
      simp only [List.head?_cons, Option.mem_def, Option.some.injEq] at hy
      subst hy
      rw [hl]
      exact fun hcc => h hcc.symm

/-- `merge_consecutive` fixes any list with no two adjacent equal labels. -/
theorem merge_consecutive_of_chain_ne : ∀ l : List ChordEvent,
    List.Chain' (fun a b => a.chord_label ≠ b.chord_label) l →
    merge_consecutive l = l := by
  intro l
  induction l with
  | nil => intro _; rfl
  | cons c rest ih =>
    intro h
    cases rest with
    | nil => rfl
    | cons d rest' =>
      have hne : c.chord_label ≠ d.chord_label := (List.chain'_cons.1 h).1
      have htail := (List.chain'_cons.1 h).2
      have h2 : mergeAux d rest' = d :: rest' := ih htail
      have key : merge_consecutive (c :: d :: rest') = c :: mergeAux d rest' := by
        show mergeAux c (d :: rest') = _
        simp [mergeAux, Ne.symm hne]
      rw [key, h2]

/-- C8: the merge-consecutive-same-label step of ChordEventBuilder is
idempotent: applying `_merge_consecutive` twice yields exactly the event list
obtained by applying it once. -/
theorem merge_consecutive_idempotent (chords : List ChordEvent) :
    merge_consecutive (merge_consecutive chords) = merge_consecutive chords := by
  cases chords with
  | nil => rfl
  | cons c rest =>
    exact merge_consecutive_of_chain_ne _ (mergeAux_chain_ne rest c)

/-- Evaluation of the scenario: `process` yields `C[0,2)` then `G[2,4)`. -/
lemma scenario_process_eval :
    process scenarioConfig scenarioPreds =
      [{ start_time := 0, end_time := 2, chord_label := "C", confidence := 9/10 },
       { start_time := 2, end_time := 4, chord_label := "G", confidence := 9/10 }] := by
  simp [process, convert_to_events, convertAux, merge_consecutive, mergeAux,
    filter_by_confidence, filter_short_chords, scenarioConfig, scenarioPreds,
    ChordEvent.duration]
  norm_num

/-- C2 (corrected): on the scenario input with minimum duration 1.5 s, no
smoothing and no confidence filter, `process` returns exactly the events
`C[0,2)` and `G[2,4)` — the final event ends at the last frame's time. -/
theorem process_scenario_events :
    process scenarioConfig scenarioPreds =
      [{ start_time := 0, end_time := 2, chord_label := "C", confidence := 9/10 },
       { start_time := 2, end_time := 4, chord_label := "G", confidence := 9/10 }] :=
  scenario_process_eval

/-- C2 (counterexample): contrary to the claim, no event of the scenario
output is labelled `G` with span `[2,5)`; the `G` event ends at time 4. -/
theorem process_scenario_no_event_to_five :
    ¬ ∃ e ∈ process scenarioConfig scenarioPreds,
        e.chord_label = "G" ∧ e.start_time = 2 ∧ e.end_time = 5 := by
  intro hex
  obtain ⟨e, he, hl, hs, hend⟩ := hex
  rw [scenario_process_eval] at he
  simp only [List.mem_cons, List.not_mem_nil, or_false] at he
  rcases he with he | he
  · subst he; exact absurd hl (by decide)
  · subst he; norm_num at hend

/-- Between two adjacent emitted events, the input contains a frame that
terminates the first event's run: its time is the first event's end time, its
confidence is the confidence stored on the first event, and it bears the next
(different) label, starting the second event. -/
def runTerminated (preds : List RawPred) (a b : ChordEvent) : Prop :=
  ∃ p ∈ preds, p.time = a.end_time ∧ p.conf = a.confidence ∧
    p.label ≠ a.chord_label ∧ p.label = b.chord_label ∧ b.start_time = p.time

/-- The confidence `_convert_to_events` stores on its trailing event:
the last prediction's confidence, or the accumulator value for an exhausted
stream. -/
def lastConf : List RawPred → ℚ → ℚ
  | [], lc => lc
  | p :: rest, _ => lastConf rest p.conf

lemma getLast?_map_conf (rest : List RawPred) : ∀ p : RawPred,
    ((p :: rest).getLast?).map RawPred.conf = some (lastConf rest p.conf) := by
  induction rest with
  | nil => intro p; simp [lastConf]
  | cons q rest ih =>
    intro p
    rw [List.getLast?_cons_cons, ih q]
    rfl

/-- `convertAux` always returns a cons whose head carries the accumulator's
label and start time. -/
lemma convertAux_cons (rest : List RawPred) : ∀ (cur : String) (st lt lc : ℚ),
    ∃ d rest', convertAux cur st lt lc rest = d :: rest' ∧
      d.chord_label = cur ∧ d.start_time = st := by
  induction rest with
  | nil => intro cur st lt lc; exact ⟨_, [], rfl, rfl, rfl⟩
  | cons p rest ih =>
    intro cur st lt lc
    by_cases h : p.label = cur
    · obtain ⟨d, rest', hd, hl, hs⟩ := ih cur st p.time p.conf
      exact ⟨d, rest', by simp [convertAux, h, hd], hl, hs⟩
    · refine ⟨⟨st, p.time, cur, p.conf, "", "", ""⟩,
        convertAux p.label p.time p.time p.conf rest, ?_, rfl, rfl⟩
      simp [convertAux, h]

/-- Adjacent events produced by `convertAux` are linked by a terminating
frame drawn from any superset of the remaining input. -/
lemma convertAux_chain (sup : List RawPred) (rest : List RawPred) :
    ∀ (cur : String) (st lt lc : ℚ), (∀ p ∈ rest, p ∈ sup) →
    List.Chain' (runTerminated sup) (convertAux cur st lt lc rest) := by
  induction rest with
  | nil => intro cur st lt lc _; simp [convertAux]
  | cons p rest ih =>
    intro cur st lt lc hsub
    have hsub' : ∀ q ∈ rest, q ∈ sup := fun q hq => hsub q (List.mem_cons_of_mem p hq)
    by_cases h : p.label = cur
    · simpa [convertAux, h] using ih cur st p.time p.conf hsub'
    · obtain ⟨d, rest', hd, hl, hs⟩ := convertAux_cons rest p.label p.time p.time p.conf
      rw [convertAux]
      simp only [if_neg h]
      refine List.chain'_cons'.2 ⟨?_, ih p.label p.time p.time p.conf hsub'⟩
      intro y hy
      rw [hd] at hy
      simp only [List.head?_cons, Option.mem_def, Option.some.injEq] at hy
      subst hy
      exact ⟨p, hsub p (List.mem_cons_self p rest), rfl, rfl, h, hl.symm, hs⟩

/-- The trailing event of `convertAux` stores `lastConf rest lc`. -/
lemma convertAux_last_conf (rest : List RawPred) : ∀ (cur : String) (st lt lc : ℚ),
    ((convertAux cur st lt lc rest).getLast?).map ChordEvent.confidence =
      some (lastConf rest lc) := by
  induction rest with
  | nil => intro cur st lt lc; rfl
  | cons p rest ih =>
    intro cur st lt lc
    show _ = some (lastConf rest p.conf)
    by_cases h : p.label = cur
    · rw [convertAux]; simp only [if_pos h]; exact ih cur st p.time p.conf
    · rw [convertAux]
      simp only [if_neg h]
      obtain ⟨d, rest', hd, _, _⟩ := convertAux_cons rest p.label p.time p.time p.conf
      rw [hd, List.getLast?_cons_cons, ← hd]
      exact ih p.label p.time p.time p.conf

/-- C10: every adjacent pair of events emitted by `_convert_to_events` is
linked by the input frame that terminated the earlier run — the event's
stored confidence is that terminating frame's confidence (the first frame of
the next, differently-labelled run), the trailing event stores the last input
frame's confidence, and `_filter_by_confidence` keeps exactly the events
whose stored confidence reaches the threshold. -/
theorem convert_to_events_confidence_from_run_terminator (preds : List RawPred) :
    List.Chain' (runTerminated preds) (convert_to_events preds) ∧
    ((convert_to_events preds).getLast?).map ChordEvent.confidence =
      (preds.getLast?).map RawPred.conf ∧
    ∀ (cfg : ChordDetectionConfig) (e : ChordEvent),
      e ∈ filter_by_confidence cfg (convert_to_events preds) ↔
        e ∈ convert_to_events preds ∧ cfg.filter_low_confidence ≤ e.confidence := by
  refine ⟨?_, ?_, ?_⟩
  · cases preds with
    | nil => simp [convert_to_events]
    | cons p rest =>
      show List.Chain' _ (convertAux p.label p.time p.time p.conf rest)
      exact convertAux_chain (p :: rest) rest p.label p.time p.time p.conf
        (fun q hq => List.mem_cons_of_mem p hq)
  · cases preds with
    | nil => simp [convert_to_events]
    | cons p rest =>
      rw [convert_to_events, convertAux_last_conf rest p.label p.time p.time p.conf,
        getLast?_map_conf rest p]
  · intro cfg e
    simp [filter_by_confidence, List.mem_filter]

/-- The time of the last prediction consumed, `lt` for an empty remainder. -/
def lastTime : List RawPred → ℚ → ℚ
  | [], lt => lt
  | p :: rest, _ => lastTime rest p.time

lemma getLast?_map_time (rest : List RawPred) : ∀ p : RawPred,
    ((p :: rest).getLast?).map RawPred.time = some (lastTime rest p.time) := by
  induction rest with
  | nil => intro p; simp [lastTime]
  | cons q rest ih =>
    intro p
    rw [List.getLast?_cons_cons, ih q]
    rfl

/-- Contiguity invariants of `convertAux` over a time-sorted remainder:
every event has `start ≤ end`, adjacent events share their boundary, and the
trailing event ends at the last consumed time. -/
lemma convertAux_contig (rest : List RawPred) : ∀ (cur : String) (st lt lc : ℚ),
    st ≤ lt → (∀ q ∈ rest.head?, lt ≤ q.time) →
    List.Chain' (fun p q => p.time ≤ q.time) rest →
    (∀ e ∈ convertAux cur st lt lc rest, e.start_time ≤ e.end_time) ∧
    List.Chain' (fun a b => a.end_time = b.start_time) (convertAux cur st lt lc rest) ∧
    ((convertAux cur st lt lc rest).getLast?).map ChordEvent.end_time =
      some (lastTime rest lt) := by
  induction rest with
  | nil =>
    intro cur st lt lc hstlt _ _
    refine ⟨?_, by simp [convertAux], by simp [convertAux, lastTime]⟩
    intro e he
    simp only [convertAux, List.mem_singleton] at he
    subst he
    exact hstlt
  | cons p rest ih =>
    intro cur st lt lc hstlt hlt hchain
    have hlt_p : lt ≤ p.time := hlt p (by simp)
    have hhead : ∀ q ∈ rest.head?, p.time ≤ q.time := (List.chain'_cons'.1 hchain).1
    have htail : List.Chain' (fun p q => p.time ≤ q.time) rest :=
      (List.chain'_cons'.1 hchain).2
    by_cases h : p.label = cur
    · have := ih cur st p.time p.conf (le_trans hstlt hlt_p) hhead htail
      refine ⟨?_, ?_, ?_⟩
      · simpa [convertAux, h] using this.1
      · simpa [convertAux, h] using this.2.1
      · show ((convertAux cur st lt lc (p :: rest)).getLast?).map ChordEvent.end_time =
          some (lastTime rest p.time)
        simpa [convertAux, h] using this.2.2
    · have := ih p.label p.time p.time p.conf le_rfl hhead htail
      obtain ⟨d, rest', hd, _, hds⟩ := convertAux_cons rest p.label p.time p.time p.conf
      have hunfold : convertAux cur st lt lc (p :: rest) =
          ⟨st, p.time, cur, p.conf, "", "", ""⟩ ::
            convertAux p.label p.time p.time p.conf rest := by
        simp [convertAux, h]
      refine ⟨?_, ?_, ?_⟩
      · intro e he
        rw [hunfold] at he
        rcases List.mem_cons.1 he with he | he
        · subst he; exact le_trans hstlt hlt_p
        · exact this.1 e he
      · rw [hunfold]
        refine List.chain'_cons'.2 ⟨?_, this.2.1⟩
        intro y hy
        rw [hd] at hy
        simp only [List.head?_cons, Option.mem_def, Option.some.injEq] at hy
        subst hy
        rw [hds]
      · rw [hunfold]
        show ((_ :: convertAux p.label p.time p.time p.conf rest).getLast?).map
            ChordEvent.end_time = some (lastTime rest p.time)
        rw [hd, List.getLast?_cons_cons, ← hd]
        exact this.2.2

/-- The end time of the event `_merge_consecutive`'s loop will finish on. -/
def lastEnd : List ChordEvent → ChordEvent → ℚ
  | [], cur => cur.end_time
  | c :: rest, _ => lastEnd rest c

/-- `mergeAux` preserves the contiguity invariants. -/
lemma mergeAux_contig (rest : List ChordEvent) : ∀ cur : ChordEvent,
    (∀ e ∈ cur :: rest, e.start_time ≤ e.end_time) →
    List.Chain' (fun a b => a.end_time = b.start_time) (cur :: rest) →
    (∀ e ∈ mergeAux cur rest, e.start_time ≤ e.end_time) ∧
    List.Chain' (fun a b => a.end_time = b.start_time) (mergeAux cur rest) ∧
    ((mergeAux cur rest).getLast?).map ChordEvent.end_time = some (lastEnd rest cur) := by
  induction rest with
  | nil =>
    intro cur hi _
    refine ⟨?_, by simp [mergeAux], by simp [mergeAux, lastEnd]⟩
    intro e he
    simp only [mergeAux, List.mem_singleton] at he
    subst he
    exact hi _ (by simp)
  | cons c rest ih =>
    intro cur hi hchain
    have hlink : cur.end_time = c.start_time := (List.chain'_cons.1 hchain).1
    have hctail : List.Chain' (fun a b => a.end_time = b.start_time) (c :: rest) :=
      (List.chain'_cons.1 hchain).2
    have hitail : ∀ e ∈ c :: rest, e.start_time ≤ e.end_time :=
      fun e he => hi e (List.mem_cons_of_mem cur he)
    by_cases h : c.chord_label = cur.chord_label
    · set cur' : ChordEvent :=
        { cur with end_time := c.end_time,
                   confidence := max cur.confidence c.confidence } with hcur'
      have hi' : ∀ e ∈ cur' :: rest, e.start_time ≤ e.end_time := by
        intro e he
        rcases List.mem_cons.1 he with he | he
        · subst he
          show cur.start_time ≤ c.end_time
          calc cur.start_time ≤ cur.end_time := hi cur (by simp)
            _ = c.start_time := hlink
            _ ≤ c.end_time := hitail c (by simp)
        · exact hitail e (List.mem_cons_of_mem c he)
      have hchain' : List.Chain' (fun a b => a.end_time = b.start_time) (cur' :: rest) := by
        refine List.chain'_cons'.2 ⟨?_, (List.chain'_cons'.1 hctail).2⟩
        intro y hy
        show c.end_time = y.start_time
        exact (List.chain'_cons'.1 hctail).1 y hy
      have := ih cur' hi' hchain'
      refine ⟨?_, ?_, ?_⟩
      · simpa [mergeAux, h] using this.1
      · simpa [mergeAux, h] using this.2.1
      · show ((mergeAux cur (c :: rest)).getLast?).map ChordEvent.end_time =
          some (lastEnd (c :: rest) cur)
        have heq : lastEnd rest cur' = lastEnd (c :: rest) cur := by
          cases rest with
          | nil => simp [lastEnd, hcur']
          | cons r rs => rfl
        rw [← heq]
        simpa [mergeAux, h] using this.2.2
    · have := ih c hitail hctail
      obtain ⟨d, rest', hd, _, hds⟩ := mergeAux_cons rest c
      have hunfold : mergeAux cur (c :: rest) = cur :: mergeAux c rest := by
        simp [mergeAux, h]
      refine ⟨?_, ?_, ?_⟩
      · intro e he
        rw [hunfold] at he
        rcases List.mem_cons.1 he with he | he
        · subst he; exact hi _ (by simp)
        · exact this.1 e he
      · rw [hunfold]
        refine List.chain'_cons'.2 ⟨?_, this.2.1⟩
        intro y hy
        rw [hd] at hy
        simp only [List.head?_cons, Option.mem_def, Option.some.injEq] at hy
        subst hy
        rw [hds, hlink]
      · rw [hunfold, hd, List.getLast?_cons_cons, ← hd]
        exact this.2.2

lemma getLast?_map_endTime (rest : List ChordEvent) : ∀ c : ChordEvent,
    ((c :: rest).getLast?).map ChordEvent.end_time = some (lastEnd rest c) := by
  induction rest with
  | nil => intro c; simp [lastEnd]
  | cons d rest ih =>
    intro c
    rw [List.getLast?_cons_cons, ih d]
    rfl

/-- The output `out` is a gapless, overlap-free, time-ordered tiling of the
input's span `[first frame time, last frame time)`. -/
def ContiguousCover (preds : List RawPred) (out : List ChordEvent) : Prop :=
  out ≠ [] ∧
  out.head?.map ChordEvent.start_time = preds.head?.map RawPred.time ∧
  (out.getLast?).map ChordEvent.end_time = (preds.getLast?).map RawPred.time ∧
  List.Chain' (fun a b => a.end_time = b.start_time) out ∧
  (∀ e ∈ out, e.start_time ≤ e.end_time) ∧
  List.Pairwise (fun a b => a.end_time ≤ b.start_time) out

/-- C3 (amended): for a non-empty time-ordered stream, and a configuration
under which no event is discarded (confidence filter disabled, smoothing
disabled, minimum chord duration ≤ 0), `process` returns a non-empty,
time-ordered, pairwise non-overlapping, contiguous event list covering
exactly `[first frame time, last frame time)`. -/
theorem process_contiguous_cover (cfg : ChordDetectionConfig) (preds : List RawPred)
    (hne : preds ≠ [])
    (hsorted : List.Chain' (fun p q => p.time ≤ q.time) preds)
    (hconf : cfg.filter_low_confidence ≤ 0)
    (hsmooth : cfg.smooth_chords = false)
    (hmin : cfg.min_chord_duration_ms ≤ 0) :
    ContiguousCover preds (process cfg preds) := by
  obtain ⟨p, rest, rfl⟩ := List.exists_cons_of_ne_nil hne
  have hhead : ∀ q ∈ rest.head?, p.time ≤ q.time := (List.chain'_cons'.1 hsorted).1
  have htail : List.Chain' (fun p q => p.time ≤ q.time) rest :=
    (List.chain'_cons'.1 hsorted).2
  -- the run-length-encoded events
  have hconv := convertAux_contig rest p.label p.time p.time p.conf le_rfl hhead htail
  obtain ⟨d, rest₀, hd, _, hds⟩ := convertAux_cons rest p.label p.time p.time p.conf
  have hinv0 : ∀ e ∈ d :: rest₀, e.start_time ≤ e.end_time := by
    rw [← hd]; exact hconv.1
  have hchain0 : List.Chain' (fun a b => a.end_time = b.start_time) (d :: rest₀) := by
    rw [← hd]; exact hconv.2.1
  -- the merged events
  have hmerge := mergeAux_contig rest₀ d hinv0 hchain0
  obtain ⟨d', rest₁, hd', _, hds'⟩ := mergeAux_cons rest₀ d
  have hlastEnd : lastEnd rest₀ d = lastTime rest p.time := by
    have h1 : ((d :: rest₀).getLast?).map ChordEvent.end_time = some (lastEnd rest₀ d) :=
      getLast?_map_endTime rest₀ d
    rw [← hd] at h1
    rw [hconv.2.2] at h1
    exact (Option.some.inj h1).symm
  -- the pipeline reduces to merge ∘ convert since nothing is filtered
  have hproc : process cfg (p :: rest) = mergeAux d rest₀ := by
    have hnotconf : ¬ (0 < cfg.filter_low_confidence) := not_lt.2 hconf
    have hfilter : filter_short_chords cfg (mergeAux d rest₀) = mergeAux d rest₀ := by
      apply List.filter_eq_self.2
      intro e he
      have h0 : (cfg.min_chord_duration_ms : ℚ) / 1000 ≤ 0 := by
        apply div_nonpos_of_nonpos_of_nonneg
        · exact_mod_cast hmin
        · norm_num
      have h1 : (0 : ℚ) ≤ e.duration := by
        have := hmerge.1 e he
        simp only [ChordEvent.duration]
        linarith
      simp only [decide_eq_true_eq]
      exact le_trans h0 h1
    show (if (p :: rest).isEmpty then [] else _) = _
    simp only [List.isEmpty_cons, if_neg Bool.false_ne_true]
    rw [if_neg hnotconf, hsmooth]
    simp only [Bool.false_eq_true, if_neg (fun h : False => h.elim), if_false]
    show filter_short_chords cfg (merge_consecutive (convert_to_events (p :: rest))) = _
    show filter_short_chords cfg
      (merge_consecutive (convertAux p.label p.time p.time p.conf rest)) = _
    rw [hd]
    show filter_short_chords cfg (mergeAux d rest₀) = _
    exact hfilter
  rw [hproc]
  refine ⟨?_, ?_, ?_, hmerge.2.1, hmerge.1, ?_⟩
  · rw [hd']; exact List.cons_ne_nil d' rest₁
  · rw [hd']
    show some d'.start_time = some p.time
    rw [hds', hds]
  · rw [hmerge.2.2, hlastEnd, getLast?_map_time rest p]
  · refine chain'_le_pairwise ChordEvent.start_time ChordEvent.end_time _ ?_ hmerge.1
    exact hmerge.2.1.imp (fun a b h => le_of_eq h)

/-- Evaluation of `process` on `gapPreds`: the short `C` and `G` events are
discarded by the 1.5 s minimum-duration filter, leaving only `G[1,3)`. -/
lemma gap_process_eval :
    process scenarioConfig gapPreds =
      [{ start_time := 1, end_time := 3, chord_label := "G", confidence := 9/10 }] := by
  simp [process, convert_to_events, convertAux, merge_consecutive, mergeAux,
    filter_by_confidence, filter_short_chords, scenarioConfig, gapPreds,
    ChordEvent.duration]
  norm_num

/-- C3 (counterexample): on the stream `[(0,"C"),(1,"G"),(3,"C")]` with a
1.5 s minimum duration, the output is a single event `G[1,3)`: input time 0
is covered by no output event, so the output's union is not the input's
time span. -/
theorem process_gap_not_covering :
    process scenarioConfig gapPreds =
      [{ start_time := 1, end_time := 3, chord_label := "G", confidence := 9/10 }] ∧
    gapPreds.head?.map RawPred.time = some 0 ∧
    ¬ ∃ e ∈ process scenarioConfig gapPreds, e.start_time ≤ 0 ∧ 0 < e.end_time := by
  refine ⟨gap_process_eval, rfl, ?_⟩
  intro hex
  obtain ⟨e, he, hs, _⟩ := hex
  rw [gap_process_eval] at he
  simp only [List.mem_singleton] at he
  subst he
  norm_num at hs

/-- The all-permissive configuration used to witness
`process_contiguous_cover`. -/
def zeroConfig : ChordDetectionConfig :=
  { min_chord_duration_ms := 0, smooth_chords := false, filter_low_confidence := 0 }

/-- Witness for `process_contiguous_cover` at the scenario input and the
all-permissive configuration. -/
theorem process_contiguous_cover_witness :
    (scenarioPreds ≠ [] ∧
     List.Chain' (fun p q => p.time ≤ q.time) scenarioPreds ∧
     zeroConfig.filter_low_confidence ≤ 0 ∧
     zeroConfig.smooth_chords = false ∧
     zeroConfig.min_chord_duration_ms ≤ 0) ∧
    ContiguousCover scenarioPreds (process zeroConfig scenarioPreds) := by
  have h1 : scenarioPreds ≠ [] := by simp [scenarioPreds]
  have h2 : List.Chain' (fun p q : RawPred => p.time ≤ q.time) scenarioPreds := by
    norm_num [scenarioPreds, List.chain'_cons]
  exact ⟨⟨h1, h2, le_rfl, rfl, le_rfl⟩,
    process_contiguous_cover zeroConfig scenarioPreds h1 h2 le_rfl rfl le_rfl⟩

end ChordPP

namespace JobAPI

/-- `ProcessingStage` from `api/database/models.py`. -/
inductive ProcessingStage
  | separation
  | transcription
  | chords
  deriving DecidableEq, Repr

/-- `JobStatus` from `api/database/models.py`. -/
inductive JobStatus
  | queued
  | processing
  | completed
  | failed
  deriving DecidableEq, Repr

/-- The fields of the `Job` row (`api/database/models.py`) read or written
by `ProgressTracker`, `JobManager.update_job_status` and
`JobManager.update_job_stage`.  The timestamps are modelled by whether they
have been set. -/
structure Job where
  status : JobStatus
  stage : Option ProcessingStage
  progress : ℤ
  error_message : Option String
  message : Option String
  hasStartedAt : Bool
  hasCompletedAt : Bool
  deriving DecidableEq, Repr

/-- Python `int()` on a rational value: truncation toward zero (the source
applies it to a non-negative product). -/
def pyInt (q : ℚ) : ℤ := if q < 0 then -(Int.floor (-q)) else Int.floor q

/-- `ProgressTracker._stage_weights`. -/
def stage_weights : ProcessingStage → ℤ × ℤ
  | .separation => (0, 33)
  | .transcription => (33, 66)
  | .chords => (66, 100)

/-- `JobManager.update_job_stage`: sets the row's stage and progress and
commits.  Its positional parameters are `(db, job_id, stage, progress)` —
there is no `message` parameter. -/
def update_job_stage (job : Job) (stage : ProcessingStage) (progress : ℤ) : Job :=
  { job with stage := some stage, progress := progress }

/-- The positional parameter list of `JobManager.update_job_stage` in the
source: `(db, job_id, stage, progress)`. -/
def update_job_stage_params : List String := ["db", "job_id", "stage", "progress"]

/-- The positional arguments `ProgressTracker.update_stage` passes at its
call site: `(self.db, self.job_id, stage, overall_progress, message)`. -/
def update_stage_args : List String :=
  ["self.db", "self.job_id", "stage", "overall_progress", "message"]

/-- Python positional-call semantics for a function with no defaults and no
varargs: the call raises `TypeError` unless the number of arguments equals
the number of parameters. -/
def pyCall {α : Type} (paramCount argCount : Nat) (body : Unit → α) : Except String α :=
  if argCount = paramCount then .ok (body ()) else .error "TypeError"

/-- `ProgressTracker.update_stage`: computes the overall progress from the
stage's weight window and then calls `JobManager.update_job_stage` with five
positional arguments. -/
def update_stage (job : Job) (stage : ProcessingStage) (stage_progress : ℤ)
    (message : Option String) : Except String Job :=
  let se := stage_weights stage
  let overall := se.1 + pyInt (((se.2 - se.1) : ℚ) * ((stage_progress : ℚ) / 100))
  let overall := min (max overall 0) 100
  pyCall update_job_stage_params.length update_stage_args.length
    (fun _ => update_job_stage job stage overall)

/-- C1 (code bug): every call of `ProgressTracker.update_stage` raises
`TypeError` — the call site passes five positional arguments
`(db, job_id, stage, overall_progress, message)` to
`JobManager.update_job_stage`, whose signature has only the four parameters
`(db, job_id, stage, progress)` — so neither stage nor progress nor message
is ever written through to the job row. -/
theorem update_stage_always_raises (job : Job) (stage : ProcessingStage)
    (stage_progress : ℤ) (message : Option String) :
    update_stage job stage stage_progress message = .error "TypeError" := by
  cases stage <;> rfl

/-- `JobManager.update_job_status`: sets the status; stamps `started_at`
on the first transition to processing; on a terminal status stamps
`completed_at` and forces progress to 100 only for `completed`; stores the
error message only when it is truthy (non-`None` and non-empty). -/
def update_job_status (job : Job) (status : JobStatus)
    (error_message : Option String) : Job :=
  let j := { job with status := status }
  let j := if status = .processing ∧ j.hasStartedAt = false then
      { j with hasStartedAt := true } else j
  let j := if status = .completed ∨ status = .failed then
      { j with hasCompletedAt := true,
               progress := if status = .completed then 100 else j.progress }
    else j
  match error_message with
  | some s => if s ≠ "" then { j with error_message := some s } else j
  | none => j

/-- `ProgressTracker.fail_job`. -/
def fail_job (job : Job) (error_message : String) : Job :=
  update_job_status job .failed (some error_message)

/-- `PipelineWorker.run`: the stage body (separation, transcription, chord
detection and `complete_job`, which all act on the job row) is abstracted as
`body`; on an exception the worker calls
`self.progress_tracker.fail_job(str(e))` and re-raises the same exception. -/
def run (job : Job) (body : Job → Except (Job × String) Job) :
    Except (Job × String) Job :=
  match body job with
  | .ok j => .ok j
  | .error (jfail, exc) => .error (fail_job jfail exc, exc)

/-- C5 (amended): when a stage raises, the orchestrator re-raises the same
exception, and the job record passed on holds terminal `failed` status, the
progress value it had at the point of failure, and — provided the
exception's text is non-empty — that text as the error message. -/
theorem run_failure_updates_record (job : Job) (body : Job → Except (Job × String) Job)
    (jfail : Job) (exc : String) (hb : body job = .error (jfail, exc)) :
    run job body = .error (fail_job jfail exc, exc) ∧
    (fail_job jfail exc).status = .failed ∧
    (fail_job jfail exc).progress = jfail.progress ∧
    (exc ≠ "" → (fail_job jfail exc).error_message = some exc) := by
  have hstat : (fail_job jfail exc).status = .failed := by
    by_cases h : exc = "" <;> simp [fail_job, update_job_status, h]
  have hprog : (fail_job jfail exc).progress = jfail.progress := by
    by_cases h : exc = "" <;> simp [fail_job, update_job_status, h]
  refine ⟨by rw [run, hb], hstat, hprog, ?_⟩
  intro hne
  simp [fail_job, update_job_status, hne]

/-- A processing job mid-separation at 40 % progress with no error recorded. -/
def sampleJob : Job :=
  { status := .processing, stage := some .separation, progress := 40,
    error_message := none, message := none,
    hasStartedAt := true, hasCompletedAt := false }

/-- Witness for `run_failure_updates_record`: a body failing with message
"boom" from `sampleJob`. -/
theorem run_failure_updates_record_witness :
    ((fun _ : Job => (Except.error (sampleJob, "boom") : Except (Job × String) Job)) sampleJob
        = .error (sampleJob, "boom")) ∧
    (run sampleJob (fun _ => .error (sampleJob, "boom"))
        = .error (fail_job sampleJob "boom", "boom") ∧
     (fail_job sampleJob "boom").status = .failed ∧
     (fail_job sampleJob "boom").progress = sampleJob.progress ∧
     ("boom" ≠ "" → (fail_job sampleJob "boom").error_message = some "boom")) :=
  ⟨rfl, run_failure_updates_record sampleJob (fun _ => .error (sampleJob, "boom"))
    sampleJob "boom" rfl⟩

/-- C5 (counterexample): an exception whose `str()` is empty (for example
`ValueError()`) marks the job failed but leaves `error_message` unset —
no human-readable error message is written. -/
theorem run_empty_exception_no_message :
    run sampleJob (fun j => .error (j, "")) = .error (fail_job sampleJob "", "") ∧
    (fail_job sampleJob "").status = .failed ∧
    (fail_job sampleJob "").error_message = none := by
  exact ⟨rfl, rfl, rfl⟩

end JobAPI

namespace TaskQueueM

/-- The mutable state of `TaskQueue` (`api/workers/task_queue.py`): the
active-job id set and the id-to-future map (future handles modelled as
opaque tokens). -/
structure TaskQueue where
  active_jobs : List String
  job_futures : List (String × Nat)
  deriving DecidableEq, Repr

/-- The two `RuntimeError`s `submit_job` can raise. -/
inductive SubmitError
  | capacityExceeded
  | alreadyActive
  deriving DecidableEq, Repr

/-- `TaskQueue.get_active_job_count`. -/
def get_active_job_count (q : TaskQueue) : Nat := q.active_jobs.length

/-- `TaskQueue.can_accept_job`. -/
def can_accept_job (max_concurrent_jobs : Nat) (q : TaskQueue) : Bool :=
  get_active_job_count q < max_concurrent_jobs

/-- `TaskQueue.is_job_active`. -/
def is_job_active (q : TaskQueue) (job_id : String) : Bool :=
  job_id ∈ q.active_jobs

/-- `TaskQueue.submit_job`: raises when the pool is full or the id is
already active (before any mutation), otherwise registers the id in the
active set and records the freshly created future. -/
def submit_job (max_concurrent_jobs : Nat) (q : TaskQueue) (job_id : String)
    (future : Nat) : Option SubmitError × TaskQueue :=
  if ¬ can_accept_job max_concurrent_jobs q then (some .capacityExceeded, q)
  else if is_job_active q job_id then (some .alreadyActive, q)
  else (none, { active_jobs := job_id :: q.active_jobs,
                job_futures := (job_id, future) :: q.job_futures })

/-- `TaskQueue._on_job_complete`: drop the id from the active set and the
futures map. -/
def on_job_complete (q : TaskQueue) (job_id : String) : TaskQueue :=
  { active_jobs := q.active_jobs.erase job_id,
    job_futures := q.job_futures.filter (fun kv => kv.1 ≠ job_id) }

/-- C4 (amended): `submit_job` fails with `CapacityExceeded` whenever the
active count is at least the maximum — even when the id is already active,
since the capacity check runs first; it fails with `AlreadyActive` when
there is capacity and the id is already active; both failures leave the
state unchanged; otherwise it registers the id in the active set. -/
theorem submit_job_spec (max_concurrent_jobs : Nat) (q : TaskQueue)
    (job_id : String) (future : Nat) :
    (max_concurrent_jobs ≤ q.active_jobs.length →
      submit_job max_concurrent_jobs q job_id future = (some .capacityExceeded, q)) ∧
    (q.active_jobs.length < max_concurrent_jobs → job_id ∈ q.active_jobs →
      submit_job max_concurrent_jobs q job_id future = (some .alreadyActive, q)) ∧
    (q.active_jobs.length < max_concurrent_jobs → job_id ∉ q.active_jobs →
      (submit_job max_concurrent_jobs q job_id future).1 = none ∧
      job_id ∈ (submit_job max_concurrent_jobs q job_id future).2.active_jobs ∧
      (submit_job max_concurrent_jobs q job_id future).2.job_futures =
        (job_id, future) :: q.job_futures) := by
  refine ⟨?_, ?_, ?_⟩
  · intro hfull
    have : ¬ can_accept_job max_concurrent_jobs q = true := by
      simp [can_accept_job, get_active_job_count]
      exact hfull
    simp [submit_job, this]
  · intro hcap hactive
    have h1 : can_accept_job max_concurrent_jobs q = true := by
      simpa [can_accept_job, get_active_job_count] using hcap
    have h2 : is_job_active q job_id = true := by
      simpa [is_job_active] using hactive
    simp [submit_job, h1, h2]
  · intro hcap hactive
    have h1 : can_accept_job max_concurrent_jobs q = true := by
      simpa [can_accept_job, get_active_job_count] using hcap
    have h2 : ¬ is_job_active q job_id = true := by
      simpa [is_job_active] using hactive
    simp [submit_job, h1, h2]

/-- Witness for `submit_job_spec`: a fresh id admitted into a one-job queue
with capacity two. -/
theorem submit_job_spec_witness :
    ((["a"].length < 2 ∧ "b" ∉ ["a"]) ∧
     (submit_job 2 ⟨["a"], [("a", 0)]⟩ "b" 1).1 = none ∧
     "b" ∈ (submit_job 2 ⟨["a"], [("a", 0)]⟩ "b" 1).2.active_jobs ∧
     (submit_job 2 ⟨["a"], [("a", 0)]⟩ "b" 1).2.job_futures =
       ("b", 1) :: [("a", 0)]) :=
  ⟨⟨by decide, by decide⟩,
    (submit_job_spec 2 ⟨["a"], [("a", 0)]⟩ "b" 1).2.2 (by decide) (by decide)⟩

/-- C4 (counterexample): submitting an id that is already active to a full
queue raises `CapacityExceeded`, not `AlreadyActive` — the capacity check
runs first. -/
theorem submit_job_duplicate_on_full_queue :
    "a" ∈ (⟨["a"], [("a", 0)]⟩ : TaskQueue).active_jobs ∧
    (submit_job 1 ⟨["a"], [("a", 0)]⟩ "a" 1).1 = some .capacityExceeded ∧
    (submit_job 1 ⟨["a"], [("a", 0)]⟩ "a" 1).1 ≠ some .alreadyActive := by
  decide

end TaskQueueM

namespace ChunkMerge

/-!
`src/source_separation/chunk_merger.py`.  A stem buffer is a numpy array of
shape `(channels, length)`, and every array operation `merge_chunks`
performs acts identically and independently on each channel row, so a
buffer is modelled as one channel's sample list.  The raised-cosine curve
`cos(linspace(0, pi, n))` is transcendental; it is modelled by the
parameter `cosCurve n i` (the i-th of the n cosine samples), and every
theorem holds for an arbitrary curve.
-/

/-- Normalization of an integer index against length `n`, as Python/numpy
basic slicing does: negative indices count from the end, out-of-range
indices clamp. -/
def normIdx (n : Nat) (i : Int) : Nat :=
  if i < 0 then (i + n).toNat else min i.toNat n

/-- `result[pos : pos + x.length] = x` (the source's slice assignments always
have matching lengths). -/
def setSlice (l : List ℚ) (i : Int) (x : List ℚ) : List ℚ :=
  let s := normIdx l.length i
  l.take s ++ x ++ l.drop (s + x.length)

/-- In-place `result[pos : pos + x.length] op= x` for an elementwise `op`. -/
def mapSlice (f : ℚ → ℚ → ℚ) (l : List ℚ) (i : Int) (x : List ℚ) : List ℚ :=
  let s := normIdx l.length i
  l.take s ++ List.zipWith f ((l.drop s).take x.length) x ++ l.drop (s + x.length)

/-- Loop state of `merge_chunks`'s blending loop: the accumulated buffer and
the write position `pos`. -/
structure MergeState where
  result : List ℚ
  pos : Int

/-- One iteration of the blending loop: fade the overlap region of the
accumulated result, add the faded head of the chunk, then append the chunk's
remainder. -/
def merge_step (overlap_samples : Nat) (cosCurve : Nat → Nat → ℚ)
    (st : MergeState) (chunk : List ℚ) : MergeState :=
  let chunk_len := chunk.length
  let actual_overlap := min overlap_samples chunk_len
  let fade_in := (List.range actual_overlap).map
    (fun i => (1 - cosCurve actual_overlap i) / 2)
  let fade_out := (List.range actual_overlap).map
    (fun i => (1 + cosCurve actual_overlap i) / 2)
  let r1 := mapSlice (fun r f => r * f) st.result st.pos fade_out
  let r2 := mapSlice (fun r x => r + x) r1 st.pos
    (List.zipWith (fun c f => c * f) (chunk.take actual_overlap) fade_in)
  let remaining := chunk_len - actual_overlap
  let r3 := if 0 < remaining then
      setSlice r2 (st.pos + (actual_overlap : Int)) (chunk.drop actual_overlap)
    else r2
  { result := r3, pos := st.pos + (chunk_len : Int) - (actual_overlap : Int) }

/-- The `total_length` accumulation of `merge_chunks`. -/
def total_length (first : List ℚ) (rest : List (List ℚ)) (overlap_samples : Nat) : Nat :=
  rest.foldl (fun acc c => acc + (c.length - min overlap_samples c.length)) first.length

/-- The per-stem body of `merge_chunks`: `none` when no chunk has the stem
(`continue`), the single buffer unchanged for one chunk, otherwise the
crossfaded blend. -/
def merge_stem (overlap_samples : Nat) (cosCurve : Nat → Nat → ℚ) :
    List (List ℚ) → Option (List ℚ)
  | [] => none
  | [b] => some b
  | b0 :: rest =>
    let total := total_length b0 rest overlap_samples
    let init := setSlice (List.replicate total 0) 0 b0
    some ((rest.foldl (merge_step overlap_samples cosCurve)
      { result := init, pos := (b0.length : Int) - (overlap_samples : Int) }).result)

/-- `merge_chunks`: iterates over the first chunk's stem names; for each, the
buffers of the chunks containing that stem are collected and blended. -/
def merge_chunks (cosCurve : Nat → Nat → ℚ)
    (chunks : List (List (String × List ℚ))) (overlap_samples : Nat) :
    List (String × List ℚ) :=
  match chunks with
  | [] => []
  | c0 :: rest =>
    (c0.map Prod.fst).filterMap (fun stem =>
      (merge_stem overlap_samples cosCurve
        ((c0 :: rest).filterMap (fun c => List.lookup stem c))).map
        (fun buf => (stem, buf)))

lemma lookup_isSome_of_mem_fst (s : String) :
    ∀ l : List (String × List ℚ), s ∈ l.map Prod.fst → (List.lookup s l).isSome := by
  intro l
  induction l with
  | nil => intro h; simp at h
  | cons kv tl ih =>
    obtain ⟨k, v⟩ := kv
    intro h
    by_cases he : s = k
    · subst he; simp [List.lookup]
    · have hbeq : (s == k) = false := beq_eq_false_iff_ne.2 he
      have hmem : s ∈ tl.map Prod.fst := by
        rcases List.mem_cons.1 h with h | h
        · exact absurd h he
        · exact h
      simp only [List.lookup, hbeq]
      exact ih hmem

lemma lookup_filterMap_keys (F : String → Option (List ℚ)) (s : String) :
    ∀ keys : List String, s ∈ keys → (F s).isSome →
    List.lookup s (keys.filterMap (fun t => (F t).map (fun b => (t, b)))) = F s := by
  intro keys
  induction keys with
  | nil => intro h; simp at h
  | cons t ks ih =>
    intro hmem hsome
    rcases List.mem_cons.1 hmem with h | h
    · subst h
      obtain ⟨b, hb⟩ := Option.isSome_iff_exists.1 hsome
      simp [List.filterMap_cons, hb, List.lookup]
    · by_cases he : t = s
      · subst he
        obtain ⟨b, hb⟩ := Option.isSome_iff_exists.1 hsome
        simp [List.filterMap_cons, hb, List.lookup]
      · have hne : (s == t) = false := beq_eq_false_iff_ne.2 (fun hx => he hx.symm)
        cases hF : F t with
        | none => simpa [List.filterMap_cons, hF] using ih h hsome
        | some b =>
          simpa [List.filterMap_cons, hF, List.lookup, hne] using ih h hsome

lemma filterMap_eq_filter_isSome {α β : Type} (f : α → Option β) :
    ∀ l : List α, l.filterMap f = (l.filter (fun x => (f x).isSome)).filterMap f := by
  intro l
  induction l with
  | nil => rfl
  | cons a tl ih =>
    cases hf : f a with
    | none => simp [List.filterMap_cons, List.filter_cons, hf, ih]
    | some b => simp [List.filterMap_cons, List.filter_cons, hf, ih]

lemma merge_stem_isSome (overlap_samples : Nat) (cosCurve : Nat → Nat → ℚ)
    (b : List ℚ) (l : List (List ℚ)) :
    (merge_stem overlap_samples cosCurve (b :: l)).isSome := by
  cases l with
  | nil => simp [merge_stem]
  | cons c tl => simp [merge_stem]

lemma total_length_zero (first : List ℚ) (rest : List (List ℚ)) :
    total_length first rest 0 = first.length + (rest.map List.length).sum := by
  show rest.foldl (fun acc c => acc + (c.length - min 0 c.length)) first.length = _
  induction rest generalizing first with
  | nil => simp
  | cons c tl ih =>
    show tl.foldl _ (first.length + (c.length - min 0 c.length)) = _
    have h1 : first.length + (c.length - min 0 c.length) = first.length + c.length := by
      simp
    rw [h1]
    have := ih (first ++ c)
    simp only [List.length_append] at this
    rw [this]
    simp [Nat.add_assoc]

lemma mapSlice_nil (f : ℚ → ℚ → ℚ) (l : List ℚ) (i : Int) :
    mapSlice f l i [] = l := by
  simp [mapSlice, List.take_append_drop]

lemma normIdx_ofNat (n k : Nat) : normIdx n (k : Int) = min k n := by
  simp [normIdx]

lemma setSlice_at_append (acc : List ℚ) (nz : Nat) (c : List ℚ) (h : c.length ≤ nz) :
    setSlice (acc ++ List.replicate nz 0) (acc.length : Int) c =
      acc ++ c ++ List.replicate (nz - c.length) 0 := by
  have hlen : (acc ++ List.replicate nz 0).length = acc.length + nz := by simp
  have hnorm : normIdx (acc ++ List.replicate nz 0).length (acc.length : Int)
      = acc.length := by
    rw [hlen, normIdx_ofNat]
    exact Nat.min_eq_left (Nat.le_add_right _ _)
  show (acc ++ List.replicate nz 0).take _ ++ c ++
      (acc ++ List.replicate nz 0).drop (_ + c.length) = _
  rw [hnorm, List.take_left]
  have hdrop : (acc ++ List.replicate nz 0).drop (acc.length + c.length) =
      List.replicate (nz - c.length) 0 := by
    rw [List.drop_append, List.drop_replicate]
  rw [hdrop, List.append_assoc]

/-- With zero overlap each loop iteration appends its chunk verbatim: the
fades are empty and the whole chunk is written at `pos`. -/
lemma foldl_merge_step_zero (cosCurve : Nat → Nat → ℚ) :
    ∀ (rest : List (List ℚ)) (acc : List ℚ) (nz : Nat),
      (rest.map List.length).sum ≤ nz →
      (rest.foldl (merge_step 0 cosCurve)
        { result := acc ++ List.replicate nz 0, pos := (acc.length : Int) }).result
        = acc ++ rest.flatten ++ List.replicate (nz - (rest.map List.length).sum) 0 := by
  intro rest
  induction rest with
  | nil => intro acc nz _; simp
  | cons c tl ih =>
    intro acc nz hnz
    have hsum : c.length + (tl.map List.length).sum ≤ nz := by simpa using hnz
    have hstep : merge_step 0 cosCurve
        { result := acc ++ List.replicate nz 0, pos := (acc.length : Int) } c =
        { result := (acc ++ c) ++ List.replicate (nz - c.length) 0,
          pos := ((acc ++ c).length : Int) } := by
      show ({ result := _, pos := _ } : MergeState) = _
      have hov : min 0 c.length = 0 := Nat.zero_min c.length
      have hfadeo : (List.range (min 0 c.length)).map
          (fun i => (1 + cosCurve (min 0 c.length) i) / 2) = [] := by
        rw [hov]; rfl
      have hfadei : List.zipWith (fun a f => a * f) (c.take (min 0 c.length))
          ((List.range (min 0 c.length)).map
            (fun i => (1 - cosCurve (min 0 c.length) i) / 2)) = [] := by
        rw [hov]; simp
      rw [MergeState.mk.injEq]
      constructor
      · rw [hfadeo, hfadei, mapSlice_nil, mapSlice_nil]
        by_cases hc : 0 < c.length - min 0 c.length
        · rw [if_pos hc, hov]
          have : (acc.length : Int) + ((0 : Nat) : Int) = (acc.length : Int) := by simp
          rw [this]
          have := setSlice_at_append acc nz (c.drop 0)
            (by simpa using le_trans (Nat.le_add_right _ _) hsum)
          simpa [List.append_assoc] using this
        · rw [if_neg hc]
          have hc0 : c.length = 0 := by omega
          have hcnil : c = [] := List.length_eq_zero.1 hc0
          subst hcnil
          simp
      · rw [hov]
        simp only [List.length_append]
        push_cast
        ring
    rw [List.foldl_cons, hstep,
      ih (acc ++ c) (nz - c.length) (by omega)]
    have hs2 : ((c :: tl).map List.length).sum = c.length + (tl.map List.length).sum := by
      simp
    have hco : nz - c.length - (tl.map List.length).sum =
        nz - (c.length + (tl.map List.length).sum) := by omega
    simp only [List.flatten_cons, hs2, hco, List.append_assoc]

/-- With zero overlap `merge_stem` concatenates the buffers in order. -/
lemma merge_stem_zero_flatten (cosCurve : Nat → Nat → ℚ) :
    ∀ bufs : List (List ℚ), bufs ≠ [] →
      merge_stem 0 cosCurve bufs = some bufs.flatten := by
  intro bufs hne
  match bufs with
  | [b] => simp [merge_stem]
  | b0 :: c :: tl =>
    show some ((( c :: tl).foldl (merge_step 0 cosCurve)
      { result := setSlice (List.replicate (total_length b0 (c :: tl) 0) 0) 0 b0,
        pos := (b0.length : Int) - ((0 : Nat) : Int) }).result) = _
    have htot : total_length b0 (c :: tl) 0 =
        b0.length + ((c :: tl).map List.length).sum := total_length_zero b0 (c :: tl)
    have hinit : setSlice (List.replicate (total_length b0 (c :: tl) 0) 0) 0 b0 =
        b0 ++ List.replicate (((c :: tl).map List.length).sum) 0 := by
      have h0 : setSlice ([] ++ List.replicate (total_length b0 (c :: tl) 0) 0)
          ((List.length ([] : List ℚ)) : Int) b0 =
          [] ++ b0 ++ List.replicate (total_length b0 (c :: tl) 0 - b0.length) 0 :=
        setSlice_at_append [] _ b0 (by rw [htot]; exact Nat.le_add_right _ _)
      simpa [htot] using h0
    rw [hinit]
    have hpos : (b0.length : Int) - ((0 : Nat) : Int) = (b0.length : Int) := by simp
    rw [hpos]
    rw [foldl_merge_step_zero cosCurve (c :: tl) b0 (((c :: tl).map List.length).sum)
      le_rfl]
    simp

/-- C9: with `overlap_samples = 0` and every stem of the first chunk present
in every chunk, `merge_chunks` yields, for each stem of the first chunk,
exactly the in-order concatenation of that stem's buffers. -/
theorem merge_chunks_zero_overlap_concat (cosCurve : Nat → Nat → ℚ)
    (c0 : List (String × List ℚ)) (rest : List (List (String × List ℚ)))
    (stem : String) (hs : stem ∈ c0.map Prod.fst)
    (hall : ∀ c ∈ c0 :: rest, ∀ s ∈ c0.map Prod.fst, (List.lookup s c).isSome) :
    List.lookup stem (merge_chunks cosCurve (c0 :: rest) 0) =
      some (((c0 :: rest).filterMap (fun c => List.lookup stem c)).flatten) := by
  have hbufs_ne : (c0 :: rest).filterMap (fun c => List.lookup stem c) ≠ [] := by
    intro hnil
    have h0 : (List.lookup stem c0).isSome :=
      hall c0 (List.mem_cons_self c0 rest) stem hs
    obtain ⟨b, hb⟩ := Option.isSome_iff_exists.1 h0
    have : b ∈ (c0 :: rest).filterMap (fun c => List.lookup stem c) :=
      List.mem_filterMap.2 ⟨c0, List.mem_cons_self c0 rest, hb⟩
    rw [hnil] at this
    exact absurd this (List.not_mem_nil b)
  have hF : (merge_stem 0 cosCurve
      ((c0 :: rest).filterMap (fun c => List.lookup stem c))).isSome := by
    rw [merge_stem_zero_flatten cosCurve _ hbufs_ne]
    rfl
  have := lookup_filterMap_keys
    (fun t => merge_stem 0 cosCurve
      ((c0 :: rest).filterMap (fun c => List.lookup t c)))
    stem (c0.map Prod.fst) hs hF
  show List.lookup stem ((c0.map Prod.fst).filterMap _) = _
  rw [this]
  exact merge_stem_zero_flatten cosCurve _ hbufs_ne

/-- C6 (amended): for any overlap and any stem of the *first* chunk, the
merged output contains that stem, and its buffer is computed from exactly
the chunks that contain the stem — chunks lacking it are silently skipped
(filtering them away beforehand changes nothing). -/
theorem merge_chunks_skips_chunks_lacking_stem (cosCurve : Nat → Nat → ℚ)
    (c0 : List (String × List ℚ)) (rest : List (List (String × List ℚ)))
    (overlap_samples : Nat) (stem : String) (hs : stem ∈ c0.map Prod.fst) :
    (List.lookup stem (merge_chunks cosCurve (c0 :: rest) overlap_samples)).isSome ∧
    List.lookup stem (merge_chunks cosCurve (c0 :: rest) overlap_samples) =
      List.lookup stem (merge_chunks cosCurve
        ((c0 :: rest).filter (fun c => (List.lookup stem c).isSome))
        overlap_samples) := by
  have h0 : (List.lookup stem c0).isSome := lookup_isSome_of_mem_fst stem c0 hs
  have hbufs : ∀ t : String, (c0 :: rest).filterMap (fun c => List.lookup t c) =
      (((c0 :: rest).filter (fun c => (List.lookup t c).isSome)).filterMap
        (fun c => List.lookup t c)) :=
    fun t => filterMap_eq_filter_isSome (fun c => List.lookup t c) (c0 :: rest)
  have hfilter_cons : (c0 :: rest).filter (fun c => (List.lookup stem c).isSome) =
      c0 :: rest.filter (fun c => (List.lookup stem c).isSome) := by
    rw [List.filter_cons, if_pos (by simpa using h0)]
  have hne : (c0 :: rest).filterMap (fun c => List.lookup stem c) ≠ [] := by
    intro hnil
    obtain ⟨b, hb⟩ := Option.isSome_iff_exists.1 h0
    have : b ∈ (c0 :: rest).filterMap (fun c => List.lookup stem c) :=
      List.mem_filterMap.2 ⟨c0, List.mem_cons_self c0 rest, hb⟩
    rw [hnil] at this
    exact absurd this (List.not_mem_nil b)
  have hFsome : (merge_stem overlap_samples cosCurve
      ((c0 :: rest).filterMap (fun c => List.lookup stem c))).isSome := by
    obtain ⟨b, l, hb⟩ := List.exists_cons_of_ne_nil hne
    rw [hb]
    exact merge_stem_isSome overlap_samples cosCurve b l
  have hlook := lookup_filterMap_keys
    (fun t => merge_stem overlap_samples cosCurve
      ((c0 :: rest).filterMap (fun c => List.lookup t c)))
    stem (c0.map Prod.fst) hs hFsome
  have hsame : (c0 :: rest.filter (fun c => (List.lookup stem c).isSome)).filterMap
      (fun c => List.lookup stem c) =
      (c0 :: rest).filterMap (fun c => List.lookup stem c) := by
    rw [← hfilter_cons, ← hbufs stem]
  have hFsome2 : (merge_stem overlap_samples cosCurve
      ((c0 :: rest.filter (fun c => (List.lookup stem c).isSome)).filterMap
        (fun c => List.lookup stem c))).isSome := by
    rw [hsame]; exact hFsome
  have hlook2 := lookup_filterMap_keys
    (fun t => merge_stem overlap_samples cosCurve
      ((c0 :: rest.filter (fun c => (List.lookup stem c).isSome)).filterMap
        (fun c => List.lookup t c)))
    stem (c0.map Prod.fst) hs hFsome2
  constructor
  · show (List.lookup stem ((c0.map Prod.fst).filterMap _)).isSome
    rw [hlook]
    exact hFsome
  · rw [hfilter_cons]
    show List.lookup stem ((c0.map Prod.fst).filterMap _) =
      List.lookup stem ((c0.map Prod.fst).filterMap _)
    rw [hlook, hlook2]
    show merge_stem overlap_samples cosCurve _ = merge_stem overlap_samples cosCurve _
    rw [hsame]

/-- A concrete stand-in cosine curve for closed statements. -/
def flatCos : Nat → Nat → ℚ := fun _ _ => 0

/-- C6 (counterexample): `merge_chunks` iterates only over the first chunk's
stem names, so a stem present only in a later chunk is absent from the
output even though some chunk contains it. -/
theorem merge_chunks_drops_noninitial_stem :
    "b" ∈ ([("b", [(2 : ℚ)])] : List (String × List ℚ)).map Prod.fst ∧
    List.lookup "b" (merge_chunks flatCos [[("a", [(1 : ℚ)])], [("b", [2])]] 0) = none := by
  constructor
  · simp
  · simp [merge_chunks, merge_stem, List.lookup, List.filterMap_cons]

/-- Witness for `merge_chunks_skips_chunks_lacking_stem`: stem `a` of the
first chunk, with a middle chunk lacking it. -/
theorem merge_chunks_skips_witness :
    ("a" ∈ ([("a", [(1 : ℚ)])] : List (String × List ℚ)).map Prod.fst) ∧
    ((List.lookup "a" (merge_chunks flatCos
        ([("a", [(1 : ℚ)])] :: [[("b", [2])], [("a", [3])]]) 5)).isSome ∧
      List.lookup "a" (merge_chunks flatCos
          ([("a", [(1 : ℚ)])] :: [[("b", [2])], [("a", [3])]]) 5) =
        List.lookup "a" (merge_chunks flatCos
          (([("a", [(1 : ℚ)])] :: [[("b", [2])], [("a", [3])]]).filter
            (fun c => (List.lookup "a" c).isSome)) 5)) :=
  ⟨by simp, merge_chunks_skips_chunks_lacking_stem flatCos
    [("a", [(1 : ℚ)])] [[("b", [2])], [("a", [3])]] 5 "a" (by simp)⟩

/-- Witness for `merge_chunks_zero_overlap_concat`: two chunks both holding
stem `a`, overlap 0. -/
theorem merge_chunks_zero_overlap_witness :
    ("a" ∈ ([("a", [(1 : ℚ), 2])] : List (String × List ℚ)).map Prod.fst) ∧
    (∀ c ∈ ([("a", [(1 : ℚ), 2])] :: [[("a", [3])]]),
      ∀ s ∈ ([("a", [(1 : ℚ), 2])] : List (String × List ℚ)).map Prod.fst,
        (List.lookup s c).isSome) ∧
    List.lookup "a" (merge_chunks flatCos ([("a", [(1 : ℚ), 2])] :: [[("a", [3])]]) 0) =
      some ((([("a", [(1 : ℚ), 2])] :: [[("a", [3])]]).filterMap
        (fun c => List.lookup "a" c)).flatten) := by
  have h1 : "a" ∈ ([("a", [(1 : ℚ), 2])] : List (String × List ℚ)).map Prod.fst := by
    simp
  have h2 : ∀ c ∈ ([("a", [(1 : ℚ), 2])] :: [[("a", [3])]]),
      ∀ s ∈ ([("a", [(1 : ℚ), 2])] : List (String × List ℚ)).map Prod.fst,
        (List.lookup s c).isSome := by
    intro c hc s hsm
    simp only [List.map_cons, List.map_nil, List.mem_singleton] at hsm
    subst hsm
    rcases List.mem_cons.1 hc with h | h
    · subst h; simp [List.lookup]
    · simp only [List.mem_singleton] at h
      subst h; simp [List.lookup]
  exact ⟨h1, h2, merge_chunks_zero_overlap_concat flatCos
    [("a", [(1 : ℚ), 2])] [[("a", [3])]] "a" h1 h2⟩

end ChunkMerge

namespace NoteSeg

/-- `PitchFrame` from `src/vocal_transcription/models.py`. -/
structure PitchFrame where
  time : ℚ
  frequency : ℚ
  confidence : ℚ
  midi_pitch : ℚ := 0
  deriving DecidableEq, Repr, Inhabited

/-- `PitchFrame.is_voiced` property: `frequency > 0 and confidence > 0`. -/
def PitchFrame.is_voiced (f : PitchFrame) : Bool :=
  decide (0 < f.frequency) && decide (0 < f.confidence)

/-- `NoteEvent` from `src/vocal_transcription/models.py`. -/
structure NoteEvent where
  start_time : ℚ
  end_time : ℚ
  anchor_midi : ℤ
  pitch_contour : List PitchFrame := []
  velocity : ℤ := 100
  deriving DecidableEq, Repr

/-- `NoteEvent.duration` property. -/
def NoteEvent.duration (n : NoteEvent) : ℚ := n.end_time - n.start_time

/-- The fields of `TranscriptionConfig` (`src/vocal_transcription/config.py`)
consumed by `NoteSegmenter`. -/
structure TranscriptionConfig where
  hop_size_ms : ℤ := 10
  min_note_duration_ms : ℤ := 40
  note_gap_threshold_ms : ℤ := 80
  pitch_jump_threshold : ℚ := 3/2
  deriving DecidableEq, Repr

/-- Modelled from the spec: `src/vocal_transcription/constants.py` is absent
from the sources; the spec only requires velocity ∈ [1,127], and
`NoteEvent`'s model default is 100. -/
def DEFAULT_VELOCITY : ℤ := 100

/-- `segment[0].time` of a non-empty segment (0 as an unused fallback). -/
def ctHead (c : List PitchFrame) : ℚ := (c.head?.map PitchFrame.time).getD 0

/-- `segment[-1].time` of a non-empty segment (0 as an unused fallback). -/
def ctLast (c : List PitchFrame) : ℚ := (c.getLast?.map PitchFrame.time).getD 0

/-- `np.arange(30, 90, 0.5)[k]`: the histogram bin edges. -/
def binEdge (k : Nat) : ℚ := 30 + (k : ℚ) / 2

/-- `np.histogram(midi_values, bins=np.arange(30, 90, 0.5))`: 119 bins, each
`[e_i, e_i+1)`, the final bin right-closed. -/
def histogram (vals : List ℚ) : List Nat :=
  (List.range 119).map (fun i =>
    vals.countP (fun v =>
      if i = 118 then decide (binEdge i ≤ v ∧ v ≤ binEdge (i + 1))
      else decide (binEdge i ≤ v ∧ v < binEdge (i + 1))))

/-- `np.argmax` on counts: index of the first maximum. -/
def argmaxAux : List Nat → Nat → Nat → Nat → Nat
  | [], _, _, best_idx => best_idx
  | x :: rest, idx, best, best_idx =>
    if best < x then argmaxAux rest (idx + 1) x idx
    else argmaxAux rest (idx + 1) best best_idx

/-- `np.argmax`. -/
def argmax : List Nat → Nat
  | [] => 0
  | x :: rest => argmaxAux rest 1 x 0

/-- Python `round`: round half to even, then `int()`. -/
def pyRound (q : ℚ) : ℤ :=
  let f := Int.floor q
  let r := q - f
  if r < 1/2 then f
  else if 1/2 < r then f + 1
  else if f % 2 = 0 then f else f + 1

/-- `NoteSegmenter._find_anchor_note`. -/
def find_anchor_note (midi_values : List ℚ) : ℤ :=
  if midi_values.isEmpty then 60
  else
    let hist := histogram midi_values
    let peak_idx := argmax hist
    pyRound ((binEdge peak_idx + binEdge (peak_idx + 1)) / 2)

/-- The loop of `NoteSegmenter._find_voiced_segments`: `current_segment` is
the accumulator; a voiced frame whose gap from the previous accumulated
frame exceeds `gap_threshold + hop` flushes the segment first; an unvoiced
frame flushes a non-empty segment. -/
def fvsAux (gap_threshold_sec hop_sec : ℚ) (current_segment : List PitchFrame) :
    List PitchFrame → List (List PitchFrame)
  | [] => if current_segment.isEmpty then [] else [current_segment]
  | f :: rest =>
    if f.is_voiced then
      if current_segment.isEmpty then
        fvsAux gap_threshold_sec hop_sec (current_segment ++ [f]) rest
      else if gap_threshold_sec + hop_sec < f.time - ctLast current_segment then
        current_segment :: fvsAux gap_threshold_sec hop_sec [f] rest
      else
        fvsAux gap_threshold_sec hop_sec (current_segment ++ [f]) rest
    else
      if current_segment.isEmpty then fvsAux gap_threshold_sec hop_sec [] rest
      else current_segment :: fvsAux gap_threshold_sec hop_sec [] rest

/-- `NoteSegmenter._find_voiced_segments`. -/
def find_voiced_segments (cfg : TranscriptionConfig) (frames : List PitchFrame) :
    List (List PitchFrame) :=
  fvsAux ((cfg.note_gap_threshold_ms : ℚ) / 1000) ((cfg.hop_size_ms : ℚ) / 1000)
    [] frames

/-- `NoteSegmenter._create_notes_from_segments`: empty segments are skipped;
a note spans `[segment[0].time, segment[-1].time + hop)`. -/
def create_notes_from_segments (cfg : TranscriptionConfig)
    (segments : List (List PitchFrame)) : List NoteEvent :=
  segments.filterMap (fun seg =>
    if seg.isEmpty then none
    else some
      { start_time := ctHead seg,
        end_time := ctLast seg + (cfg.hop_size_ms : ℚ) / 1000,
        anchor_midi := find_anchor_note (seg.map PitchFrame.midi_pitch),
        pitch_contour := seg,
        velocity := DEFAULT_VELOCITY })

/-- The loop of `NoteSegmenter._merge_short_notes`: `merged[-1]` is the
`prev` accumulator; a short note close enough to `prev` is absorbed into it
(end time extended, contour appended). -/
def msnAux (min_duration_sec gap_threshold_sec : ℚ) (prev : NoteEvent) :
    List NoteEvent → List NoteEvent
  | [] => [prev]
  | cur :: rest =>
    if cur.duration < min_duration_sec ∧
        cur.start_time - prev.end_time < gap_threshold_sec then
      msnAux min_duration_sec gap_threshold_sec
        { prev with end_time := cur.end_time,
                    pitch_contour := prev.pitch_contour ++ cur.pitch_contour } rest
    else
      prev :: msnAux min_duration_sec gap_threshold_sec cur rest

/-- `NoteSegmenter._merge_short_notes`. -/
def merge_short_notes (cfg : TranscriptionConfig) (notes : List NoteEvent) :
    List NoteEvent :=
  if notes.length < 2 then notes
  else
    match notes with
    | [] => []
    | n :: rest =>
      msnAux ((cfg.min_note_duration_ms : ℚ) / 1000)
        ((cfg.note_gap_threshold_ms : ℚ) / 1000) n rest

/-- The sub-note built from `note.pitch_contour[s:e]` in
`NoteSegmenter._split_note_on_jumps` (empty slices are skipped). -/
def mkSubNote (cfg : TranscriptionConfig) (c : List PitchFrame) (v : ℤ)
    (se : Nat × Nat) : Option NoteEvent :=
  let seg := (c.take se.2).drop se.1
  if seg.isEmpty then none
  else some
    { start_time := ctHead seg,
      end_time := ctLast seg + (cfg.hop_size_ms : ℚ) / 1000,
      anchor_midi := find_anchor_note (seg.map PitchFrame.midi_pitch),
      pitch_contour := seg,
      velocity := v }

/-- `NoteSegmenter._split_note_on_jumps`: split the contour wherever
consecutive frames differ by more than the jump threshold. -/
def split_note_on_jumps (cfg : TranscriptionConfig) (note : NoteEvent) :
    List NoteEvent :=
  if note.pitch_contour.length < 3 then [note]
  else
    let jump_indices := (List.range' 1 (note.pitch_contour.length - 1)).filter
      (fun i => decide (cfg.pitch_jump_threshold <
        |(note.pitch_contour.getD i default).midi_pitch -
          (note.pitch_contour.getD (i - 1) default).midi_pitch|))
    if jump_indices.isEmpty then [note]
    else
      let split_indices := (0 :: jump_indices) ++ [note.pitch_contour.length]
      let sub_notes := (split_indices.zip split_indices.tail).filterMap
        (mkSubNote cfg note.pitch_contour note.velocity)
      if sub_notes.isEmpty then [note] else sub_notes

/-- `NoteSegmenter._split_on_pitch_jumps`. -/
def split_on_pitch_jumps (cfg : TranscriptionConfig) (notes : List NoteEvent) :
    List NoteEvent :=
  (notes.map (split_note_on_jumps cfg)).flatten

/-- `NoteSegmenter.segment`: the full pipeline. -/
def segment (cfg : TranscriptionConfig) (frames : List PitchFrame) :
    List NoteEvent :=
  if frames.isEmpty then []
  else
    let segments := find_voiced_segments cfg frames
    let notes := create_notes_from_segments cfg segments
    let notes := merge_short_notes cfg notes
    split_on_pitch_jumps cfg notes

/-- Frames at least one hop apart: `a.time + hop ≤ b.time`. -/
def timeSep (hop : ℚ) (a b : PitchFrame) : Prop := a.time + hop ≤ b.time

/-- A `timeSep` chain survives passing to any sublist when the hop is
non-negative. -/
lemma chain'_timeSep_sublist (hop : ℚ) (hhop : 0 ≤ hop)
    {l₁ l₂ : List PitchFrame} (hsub : List.Sublist l₁ l₂)
    (hchain : List.Chain' (timeSep hop) l₂) : List.Chain' (timeSep hop) l₁ := by
  have hp : List.Pairwise (timeSep hop) l₂ :=
    chain'_le_pairwise PitchFrame.time (fun a => a.time + hop) l₂ hchain
      (fun x _ => by show x.time ≤ x.time + hop; linarith)
  exact (hp.sublist hsub).chain'

/-- Every segment `_find_voiced_segments` emits is non-empty. -/
lemma fvsAux_ne_nil (g h : ℚ) : ∀ (frames cur : List PitchFrame),
    ∀ s ∈ fvsAux g h cur frames, s ≠ [] := by
  intro frames
  induction frames with
  | nil =>
    intro cur s hs
    by_cases hc : cur.isEmpty
    · simp [fvsAux, hc] at hs
    · simp only [fvsAux, if_neg hc, List.mem_singleton] at hs
      subst hs
      simpa using hc
  | cons f rest ih =>
    intro cur s hs
    by_cases hv : f.is_voiced
    · rw [fvsAux, if_pos hv] at hs
      by_cases hc : cur.isEmpty
      · rw [if_pos hc] at hs
        exact ih (cur ++ [f]) s hs
      · rw [if_neg hc] at hs
        by_cases hgap : g + h < f.time - ctLast cur
        · rw [if_pos hgap] at hs
          rcases List.mem_cons.1 hs with hcur | hs
          · subst hcur
            simpa using hc
          · exact ih [f] s hs
        · rw [if_neg hgap] at hs
          exact ih (cur ++ [f]) s hs
    · rw [fvsAux, if_neg hv] at hs
      by_cases hc : cur.isEmpty
      · rw [if_pos hc] at hs
        exact ih [] s hs
      · rw [if_neg hc] at hs
        rcases List.mem_cons.1 hs with hcur | hs
        · subst hcur
          simpa using hc
        · exact ih [] s hs

/-- The frames of the emitted segments, in order, form a sublist of
`cur ++ frames`. -/
lemma fvsAux_flatten_sublist (g h : ℚ) : ∀ (frames cur : List PitchFrame),
    List.Sublist (fvsAux g h cur frames).flatten (cur ++ frames) := by
  intro frames
  induction frames with
  | nil =>
    intro cur
    by_cases hc : cur.isEmpty
    · simp [fvsAux, hc]
    · simp [fvsAux, hc]
  | cons f rest ih =>
    intro cur
    by_cases hv : f.is_voiced
    · rw [fvsAux, if_pos hv]
      have happ : (cur ++ [f]) ++ rest = cur ++ f :: rest := by simp
      by_cases hc : cur.isEmpty
      · rw [if_pos hc]
        have h1 := ih (cur ++ [f])
        rw [happ] at h1
        exact h1
      · rw [if_neg hc]
        by_cases hgap : g + h < f.time - ctLast cur
        · rw [if_pos hgap]
          rw [List.flatten_cons]
          have h1 := ih [f]
          have h2 : List.Sublist (cur ++ (fvsAux g h [f] rest).flatten)
              (cur ++ ([f] ++ rest)) := List.Sublist.append_left h1 cur
          simpa using h2
        · rw [if_neg hgap]
          have h1 := ih (cur ++ [f])
          rw [happ] at h1
          exact h1
    · rw [fvsAux, if_neg hv]
      by_cases hc : cur.isEmpty
      · rw [if_pos hc]
        have hcur : cur = [] := by simpa [List.isEmpty_iff] using hc
        subst hcur
        have h1 := ih []
        simp only [List.nil_append] at h1 ⊢
        exact h1.cons f
      · rw [if_neg hc]
        rw [List.flatten_cons]
        have h1 : List.Sublist (fvsAux g h [] rest).flatten rest := by
          simpa using ih []
        exact List.Sublist.append_left (h1.cons f) cur

/-- `segment[0]` of an append with a non-empty left part. -/
lemma ctHead_append (c d : List PitchFrame) (hc : c ≠ []) :
    ctHead (c ++ d) = ctHead c := by
  cases c with
  | nil => exact absurd rfl hc
  | cons a t => rfl

/-- `segment[-1]` of an append with a non-empty right part. -/
lemma ctLast_append (c d : List PitchFrame) (hd : d ≠ []) :
    ctLast (c ++ d) = ctLast d := by
  show ((c ++ d).getLast?.map PitchFrame.time).getD 0 = _
  rw [List.getLast?_append_of_ne_nil c hd]
  rfl

/-- The structural invariant every pipeline stage maintains for a note: a
non-empty contour whose first frame's time is the note's start and whose
last frame's time plus one hop is the note's end. -/
def GoodNote (hop : ℚ) (n : NoteEvent) : Prop :=
  n.pitch_contour ≠ [] ∧ n.start_time = ctHead n.pitch_contour ∧
  n.end_time = ctLast n.pitch_contour + hop

/-- All frames of a note list, in order. -/
def contours (l : List NoteEvent) : List PitchFrame :=
  (l.map NoteEvent.pitch_contour).flatten

lemma contours_cons (n : NoteEvent) (l : List NoteEvent) :
    contours (n :: l) = n.pitch_contour ++ contours l := rfl

/-- `_create_notes_from_segments` on non-empty segments: every note is good
and the notes' frames are exactly the segments' frames. -/
lemma create_notes_inv (cfg : TranscriptionConfig) :
    ∀ segments : List (List PitchFrame), (∀ s ∈ segments, s ≠ []) →
    (∀ n ∈ create_notes_from_segments cfg segments,
      GoodNote ((cfg.hop_size_ms : ℚ) / 1000) n) ∧
    contours (create_notes_from_segments cfg segments) = segments.flatten := by
  intro segments
  induction segments with
  | nil => intro _; exact ⟨by intro n hn; simp [create_notes_from_segments] at hn, rfl⟩
  | cons seg rest ih =>
    intro hne
    have hseg : seg ≠ [] := hne seg (List.mem_cons_self seg rest)
    have hrest := ih (fun s hs => hne s (List.mem_cons_of_mem seg hs))
    have hunfold : create_notes_from_segments cfg (seg :: rest) =
        { start_time := ctHead seg,
          end_time := ctLast seg + (cfg.hop_size_ms : ℚ) / 1000,
          anchor_midi := find_anchor_note (seg.map PitchFrame.midi_pitch),
          pitch_contour := seg,
          velocity := DEFAULT_VELOCITY } :: create_notes_from_segments cfg rest := by
      show (seg :: rest).filterMap _ = _
      rw [List.filterMap_cons]
      have : seg.isEmpty = false := by simpa [List.isEmpty_iff] using hseg
      simp only [this]
      rfl
    constructor
    · intro n hn
      rw [hunfold] at hn
      rcases List.mem_cons.1 hn with hn | hn
      · subst hn
        exact ⟨hseg, rfl, rfl⟩
      · exact hrest.1 n hn
    · rw [hunfold, contours_cons, hrest.2]
      rfl

/-- `msnAux` keeps every note good and preserves the frame sequence. -/
lemma msnAux_inv (mind gapt hop : ℚ) :
    ∀ (notes : List NoteEvent) (prev : NoteEvent), GoodNote hop prev →
    (∀ n ∈ notes, GoodNote hop n) →
    (∀ n ∈ msnAux mind gapt prev notes, GoodNote hop n) ∧
    contours (msnAux mind gapt prev notes) = prev.pitch_contour ++ contours notes := by
  intro notes
  induction notes with
  | nil =>
    intro prev hprev _
    refine ⟨?_, by simp [msnAux, contours]⟩
    intro n hn
    simp only [msnAux, List.mem_singleton] at hn
    subst hn
    exact hprev
  | cons cur rest ih =>
    intro prev hprev hall
    have hcur : GoodNote hop cur := hall cur (List.mem_cons_self cur rest)
    have hrest : ∀ n ∈ rest, GoodNote hop n :=
      fun n hn => hall n (List.mem_cons_of_mem cur hn)
    by_cases hcond : cur.duration < mind ∧ cur.start_time - prev.end_time < gapt
    · have hgood : GoodNote hop
          { prev with end_time := cur.end_time,
                      pitch_contour := prev.pitch_contour ++ cur.pitch_contour } := by
        refine ⟨?_, ?_, ?_⟩
        · intro hnil
          exact hprev.1 (List.append_eq_nil.1 hnil).1
        · show prev.start_time = ctHead (prev.pitch_contour ++ cur.pitch_contour)
          rw [ctHead_append _ _ hprev.1]
          exact hprev.2.1
        · show cur.end_time = ctLast (prev.pitch_contour ++ cur.pitch_contour) + hop
          rw [ctLast_append _ _ hcur.1]
          exact hcur.2.2
      have := ih _ hgood hrest
      rw [msnAux, if_pos hcond]
      refine ⟨this.1, ?_⟩
      rw [this.2]
      show (prev.pitch_contour ++ cur.pitch_contour) ++ contours rest =
        prev.pitch_contour ++ contours (cur :: rest)
      rw [contours_cons, List.append_assoc]
    · have := ih cur hcur hrest
      rw [msnAux, if_neg hcond]
      constructor
      · intro n hn
        rcases List.mem_cons.1 hn with hn | hn
        · subst hn; exact hprev
        · exact this.1 n hn
      · rw [contours_cons, this.2, contours_cons]

/-- `_merge_short_notes` keeps every note good and preserves the frame
sequence. -/
lemma merge_short_notes_inv (cfg : TranscriptionConfig) (hop : ℚ)
    (notes : List NoteEvent) (hall : ∀ n ∈ notes, GoodNote hop n) :
    (∀ n ∈ merge_short_notes cfg notes, GoodNote hop n) ∧
    contours (merge_short_notes cfg notes) = contours notes := by
  by_cases hlen : notes.length < 2
  · rw [merge_short_notes.eq_def, if_pos hlen]
    exact ⟨hall, rfl⟩
  · rw [merge_short_notes.eq_def, if_neg hlen]
    cases notes with
    | nil => exact ⟨by intro n hn; simp at hn, rfl⟩
    | cons n rest =>
      have := msnAux_inv ((cfg.min_note_duration_ms : ℚ) / 1000)
        ((cfg.note_gap_threshold_ms : ℚ) / 1000) hop rest n
        (hall n (List.mem_cons_self n rest))
        (fun m hm => hall m (List.mem_cons_of_mem n hm))
      exact ⟨this.1, by rw [this.2, contours_cons]⟩

lemma drop_take_append {α : Type} (c : List α) (s e L : Nat)
    (hse : s ≤ e) (heL : e ≤ L) :
    (c.take e).drop s ++ (c.take L).drop e = (c.take L).drop s := by
  have h1 : c.take e = (c.take L).take e := by
    rw [List.take_take, Nat.min_eq_left heL]
  have h2 : (c.take L).drop e = ((c.take L).drop s).drop (e - s) := by
    rw [List.drop_drop, Nat.add_sub_cancel' hse]
  rw [h1, List.drop_take, h2, List.take_append_drop]

lemma chain'_le_getLastD : ∀ (idxs : List Nat) (e : Nat),
    List.Chain' (· ≤ ·) (e :: idxs) → e ≤ idxs.getLastD e := by
  intro idxs
  induction idxs with
  | nil => intro e _; simp [List.getLastD]
  | cons j tl ih =>
    intro e hch
    rw [List.getLastD_cons]
    exact le_trans (List.chain'_cons.1 hch).1 (ih j (List.chain'_cons.1 hch).2)

/-- The slices cut at a weakly increasing index list tile the prefix of the
list up to the final index. -/
lemma zip_slices_flatten (c : List PitchFrame) :
    ∀ (idxs : List Nat) (s : Nat), List.Chain' (· ≤ ·) (s :: idxs) →
      (((s :: idxs).zip idxs).map (fun se => (c.take se.2).drop se.1)).flatten
        = (c.take (idxs.getLastD s)).drop s := by
  intro idxs
  induction idxs with
  | nil =>
    intro s _
    show ([] : List (List PitchFrame)).flatten = (c.take s).drop s
    have : (c.take s).drop s = [] := by
      apply List.drop_eq_nil_of_le
      rw [List.length_take]
      exact min_le_left s c.length
    rw [this]
    rfl
  | cons e tl ih =>
    intro s hch
    have hse : s ≤ e := (List.chain'_cons.1 hch).1
    have hch' : List.Chain' (· ≤ ·) (e :: tl) := (List.chain'_cons.1 hch).2
    have heL : e ≤ tl.getLastD e := chain'_le_getLastD tl e hch'
    simp only [List.zip_cons_cons, List.map_cons, List.flatten_cons]
    rw [ih e hch', List.getLastD_cons]
    exact drop_take_append c s e (tl.getLastD e) hse heL

/-- The sub-notes built over index pairs are all good, and their frames are
the corresponding slices. -/
lemma mkSubNote_filterMap_inv (cfg : TranscriptionConfig) (c : List PitchFrame)
    (v : ℤ) : ∀ pairs : List (Nat × Nat),
    (∀ n ∈ pairs.filterMap (mkSubNote cfg c v),
      GoodNote ((cfg.hop_size_ms : ℚ) / 1000) n) ∧
    contours (pairs.filterMap (mkSubNote cfg c v)) =
      (pairs.map (fun se => (c.take se.2).drop se.1)).flatten := by
  intro pairs
  induction pairs with
  | nil => exact ⟨by intro n hn; simp at hn, rfl⟩
  | cons se tl ih =>
    by_cases hemp : ((c.take se.2).drop se.1).isEmpty
    · have hnone : mkSubNote cfg c v se = none := by
        rw [mkSubNote]
        simp only [if_pos hemp]
      have hnil : (c.take se.2).drop se.1 = [] := by
        simpa [List.isEmpty_iff] using hemp
      constructor
      · intro n hn
        rw [List.filterMap_cons, hnone] at hn
        exact ih.1 n hn
      · rw [List.filterMap_cons, hnone, List.map_cons, List.flatten_cons, hnil,
          List.nil_append]
        exact ih.2
    · have hsome : mkSubNote cfg c v se = some
          { start_time := ctHead ((c.take se.2).drop se.1),
            end_time := ctLast ((c.take se.2).drop se.1) + (cfg.hop_size_ms : ℚ) / 1000,
            anchor_midi := find_anchor_note (((c.take se.2).drop se.1).map
              PitchFrame.midi_pitch),
            pitch_contour := (c.take se.2).drop se.1,
            velocity := v } := by
        rw [mkSubNote]
        simp only [if_neg hemp]
      have hne : (c.take se.2).drop se.1 ≠ [] := by
        simpa [List.isEmpty_iff] using hemp
      constructor
      · intro n hn
        rw [List.filterMap_cons, hsome] at hn
        rcases List.mem_cons.1 hn with hn | hn
        · subst hn
          exact ⟨hne, rfl, rfl⟩
        · exact ih.1 n hn
      · rw [List.filterMap_cons, hsome, List.map_cons, List.flatten_cons,
          contours_cons, ih.2]

lemma pairwise_lt_zero_cons (l : List Nat) (hpos : ∀ x ∈ l, 0 < x)
    (hl : List.Pairwise (· < ·) l) : List.Pairwise (· < ·) (0 :: l) :=
  List.pairwise_cons.2 ⟨hpos, hl⟩

/-- `_split_note_on_jumps` keeps the note good and only re-slices its
contour: the frames, in order, are unchanged. -/
lemma split_note_inv (cfg : TranscriptionConfig) (note : NoteEvent)
    (hgood : GoodNote ((cfg.hop_size_ms : ℚ) / 1000) note) :
    (∀ n ∈ split_note_on_jumps cfg note,
      GoodNote ((cfg.hop_size_ms : ℚ) / 1000) n) ∧
    contours (split_note_on_jumps cfg note) = note.pitch_contour := by
  have hid : (∀ n ∈ [note], GoodNote ((cfg.hop_size_ms : ℚ) / 1000) n) ∧
      contours [note] = note.pitch_contour := by
    constructor
    · intro n hn
      rcases List.mem_singleton.1 hn with rfl
      exact hgood
    · simp [contours]
  rw [split_note_on_jumps]
  by_cases hlen : note.pitch_contour.length < 3
  · rw [if_pos hlen]; exact hid
  · rw [if_neg hlen]
    set jumps := (List.range' 1 (note.pitch_contour.length - 1)).filter
      (fun i => decide (cfg.pitch_jump_threshold <
        |(note.pitch_contour.getD i default).midi_pitch -
          (note.pitch_contour.getD (i - 1) default).midi_pitch|)) with hjumps
    by_cases hemp : jumps.isEmpty
    · rw [if_pos hemp]; exact hid
    · rw [if_neg hemp]
      set L := note.pitch_contour.length with hL
      have hL3 : 3 ≤ L := Nat.le_of_not_lt hlen
      have hjmem : ∀ j ∈ jumps, 1 ≤ j ∧ j < L := by
        intro j hj
        have : j ∈ List.range' 1 (L - 1) := List.mem_of_mem_filter hj
        have hb := List.mem_range'_1.1 this
        exact ⟨hb.1, by omega⟩
      have hjpair : List.Pairwise (· < ·) jumps :=
        (List.pairwise_lt_range' 1 (L - 1)).sublist (List.filter_sublist _)
      have hchain : List.Chain' (· ≤ ·) (0 :: (jumps ++ [L])) := by
        have hp : List.Pairwise (· < ·) (0 :: (jumps ++ [L])) := by
          apply pairwise_lt_zero_cons
          · intro x hx
            rcases List.mem_append.1 hx with hx | hx
            · exact lt_of_lt_of_le Nat.zero_lt_one (hjmem x hx).1
            · rcases List.mem_singleton.1 hx with rfl
              omega
          · refine List.pairwise_append.2 ⟨hjpair, List.pairwise_singleton _ _, ?_⟩
            intro a ha b hb
            rcases List.mem_singleton.1 hb with rfl
            exact (hjmem a ha).2
        exact hp.chain'.imp (fun a b h => le_of_lt h)
      have hsplit_eq : (0 :: jumps) ++ [L] = 0 :: (jumps ++ [L]) := rfl
      have htail : ((0 :: jumps) ++ [L]).tail = jumps ++ [L] := rfl
      set pairs := (((0 :: jumps) ++ [L]).zip (((0 :: jumps) ++ [L]).tail))
        with hpairs
      have hpairs' : pairs = ((0 :: (jumps ++ [L])).zip (jumps ++ [L])) := rfl
      have hinv := mkSubNote_filterMap_inv cfg note.pitch_contour note.velocity pairs
      have hflat : (pairs.map (fun se =>
          (note.pitch_contour.take se.2).drop se.1)).flatten = note.pitch_contour := by
        rw [hpairs', zip_slices_flatten note.pitch_contour (jumps ++ [L]) 0 hchain,
          List.getLastD_concat, List.drop_zero, hL, List.take_length]
      by_cases hsub : (pairs.filterMap (mkSubNote cfg note.pitch_contour
          note.velocity)).isEmpty
      · rw [if_pos hsub]; exact hid
      · rw [if_neg hsub]
        exact ⟨hinv.1, by rw [hinv.2, hflat]⟩

lemma contours_append (l₁ l₂ : List NoteEvent) :
    contours (l₁ ++ l₂) = contours l₁ ++ contours l₂ := by
  simp [contours]

/-- `_split_on_pitch_jumps` keeps every note good and leaves the frame
sequence unchanged. -/
lemma split_on_pitch_jumps_inv (cfg : TranscriptionConfig) :
    ∀ notes : List NoteEvent,
    (∀ n ∈ notes, GoodNote ((cfg.hop_size_ms : ℚ) / 1000) n) →
    (∀ n ∈ split_on_pitch_jumps cfg notes,
      GoodNote ((cfg.hop_size_ms : ℚ) / 1000) n) ∧
    contours (split_on_pitch_jumps cfg notes) = contours notes := by
  intro notes
  induction notes with
  | nil => intro _; exact ⟨by intro n hn; simp [split_on_pitch_jumps] at hn, rfl⟩
  | cons m tl ih =>
    intro hall
    have hm := split_note_inv cfg m (hall m (List.mem_cons_self m tl))
    have htl := ih (fun n hn => hall n (List.mem_cons_of_mem m hn))
    have hunfold : split_on_pitch_jumps cfg (m :: tl) =
        split_note_on_jumps cfg m ++ split_on_pitch_jumps cfg tl := by
      show ((m :: tl).map (split_note_on_jumps cfg)).flatten = _
      rw [List.map_cons, List.flatten_cons]
      rfl
    constructor
    · intro n hn
      rw [hunfold] at hn
      rcases List.mem_append.1 hn with hn | hn
      · exact hm.1 n hn
      · exact htl.1 n hn
    · rw [hunfold, contours_append, hm.2, htl.2, contours_cons]

/-- Within a `timeSep` chain the first time is at most the last time. -/
lemma ctHead_le_ctLast (hop : ℚ) (hhop : 0 ≤ hop) :
    ∀ c : List PitchFrame, c ≠ [] → List.Chain' (timeSep hop) c →
      ctHead c ≤ ctLast c := by
  intro c
  induction c with
  | nil => intro h; exact absurd rfl h
  | cons a tl ih =>
    intro _ hch
    cases tl with
    | nil => simp [ctHead, ctLast]
    | cons b tl2 =>
      have hab : a.time + hop ≤ b.time := (List.chain'_cons.1 hch).1
      have h2 := ih (List.cons_ne_nil b tl2) (List.chain'_cons.1 hch).2
      have hhead : ctHead (a :: b :: tl2) = a.time := rfl
      have hlast : ctLast (a :: b :: tl2) = ctLast (b :: tl2) := by
        show ((a :: b :: tl2).getLast?.map PitchFrame.time).getD 0 = _
        rw [List.getLast?_cons_cons]
        rfl
      rw [hhead, hlast]
      have hbh : ctHead (b :: tl2) = b.time := rfl
      rw [hbh] at h2
      linarith

/-- Adjacent good notes whose pooled frames form a `timeSep` chain touch or
are separated: each note ends no later than the next starts. -/
lemma notes_end_start_chain (hop : ℚ) :
    ∀ l : List NoteEvent, (∀ n ∈ l, GoodNote hop n) →
    List.Chain' (timeSep hop) (contours l) →
    List.Chain' (fun m n => m.end_time ≤ n.start_time) l := by
  intro l
  induction l with
  | nil => intro _ _; simp
  | cons m tl ih =>
    intro hall hch
    cases tl with
    | nil => simp
    | cons n tl2 =>
      have hm := hall m (List.mem_cons_self m _)
      have hn := hall n (List.mem_cons_of_mem m (List.mem_cons_self n tl2))
      have hcontours : contours (m :: n :: tl2) =
          m.pitch_contour ++ contours (n :: tl2) := rfl
      rw [hcontours] at hch
      have hdec := List.chain'_append.1 hch
      have hch2 : List.Chain' (timeSep hop) (contours (n :: tl2)) := hdec.2.1
      refine List.chain'_cons.2 ⟨?_, ih (fun x hx =>
        hall x (List.mem_cons_of_mem m hx)) hch2⟩
      obtain ⟨lastF, hlastF⟩ := List.exists_mem_of_ne_nil m.pitch_contour hm.1
      obtain ⟨lf, hlf⟩ : ∃ lf, m.pitch_contour.getLast? = some lf := by
        cases hgl : m.pitch_contour.getLast? with
        | none => exact absurd (List.getLast?_eq_none_iff.1 hgl) hm.1
        | some x => exact ⟨x, rfl⟩
      obtain ⟨hf, hhf⟩ : ∃ hf, n.pitch_contour.head? = some hf := by
        cases hgh : n.pitch_contour.head? with
        | none => exact absurd (List.head?_eq_none_iff.1 hgh) hn.1
        | some x => exact ⟨x, rfl⟩
      have hjunction : timeSep hop lf hf := by
        apply hdec.2.2 lf (by rw [hlf]; rfl) hf
        rw [contours_cons]
        cases hcn : n.pitch_contour with
        | nil => exact absurd hcn hn.1
        | cons x xs =>
          rw [hcn] at hhf
          simp only [List.head?_cons, Option.some.injEq] at hhf
          subst hhf
          rfl
      have hmend : m.end_time = lf.time + hop := by
        rw [hm.2.2]
        show ctLast m.pitch_contour + hop = _
        show ((m.pitch_contour.getLast?).map PitchFrame.time).getD 0 + hop = _
        rw [hlf]
        rfl
      have hnstart : n.start_time = hf.time := by
        rw [hn.2.1]
        show ((n.pitch_contour.head?).map PitchFrame.time).getD 0 = _
        rw [hhf]
        rfl
      rw [hmend, hnstart]
      exact hjunction

/-- C7: for time-ordered pitch frames whose consecutive times are at least
one (non-negative) hop apart, `NoteSegmenter.segment` returns notes that are
time-ordered and whose `[start, end)` ranges are pairwise non-overlapping
(each note ends no later than any later note starts). -/
theorem segment_notes_ordered_disjoint (cfg : TranscriptionConfig)
    (frames : List PitchFrame) (hhop : 0 ≤ cfg.hop_size_ms)
    (hsep : List.Chain' (timeSep ((cfg.hop_size_ms : ℚ) / 1000)) frames) :
    (∀ n ∈ segment cfg frames, n.start_time ≤ n.end_time) ∧
    List.Pairwise (fun a b => a.end_time ≤ b.start_time) (segment cfg frames) ∧
    List.Pairwise (fun a b => a.start_time ≤ b.start_time) (segment cfg frames) := by
  set hop : ℚ := (cfg.hop_size_ms : ℚ) / 1000 with hhopdef
  have hhop' : 0 ≤ hop := by
    rw [hhopdef]
    apply div_nonneg
    · exact_mod_cast hhop
    · norm_num
  by_cases hframes : frames.isEmpty
  · rw [segment.eq_def, if_pos hframes]
    simp
  · have hseg_eq : segment cfg frames = split_on_pitch_jumps cfg
        (merge_short_notes cfg (create_notes_from_segments cfg
          (find_voiced_segments cfg frames))) := by
      rw [segment.eq_def, if_neg hframes]
    set segs := find_voiced_segments cfg frames with hsegs
    have hsegs_ne : ∀ s ∈ segs, s ≠ [] :=
      fvsAux_ne_nil ((cfg.note_gap_threshold_ms : ℚ) / 1000) hop frames []
    have hsegs_sub : List.Sublist segs.flatten frames := by
      have := fvsAux_flatten_sublist ((cfg.note_gap_threshold_ms : ℚ) / 1000)
        hop frames []
      simpa using this
    have hsegs_chain : List.Chain' (timeSep hop) segs.flatten :=
      chain'_timeSep_sublist hop hhop' hsegs_sub hsep
    have h1 := create_notes_inv cfg segs hsegs_ne
    set notes1 := create_notes_from_segments cfg segs with hnotes1
    have hch1 : List.Chain' (timeSep hop) (contours notes1) := by
      rw [h1.2]; exact hsegs_chain
    have h2 := merge_short_notes_inv cfg hop notes1 h1.1
    set notes2 := merge_short_notes cfg notes1 with hnotes2
    have hch2 : List.Chain' (timeSep hop) (contours notes2) := by
      rw [h2.2]; exact hch1
    have h3 := split_on_pitch_jumps_inv cfg notes2 h2.1
    set notes3 := split_on_pitch_jumps cfg notes2 with hnotes3
    have hch3 : List.Chain' (timeSep hop) (contours notes3) := by
      rw [h3.2]; exact hch2
    have hstart_end : ∀ n ∈ notes3, n.start_time ≤ n.end_time := by
      intro n hn
      have hg := h3.1 n hn
      have hsubc : List.Sublist n.pitch_contour (contours notes3) :=
        List.sublist_flatten_of_mem (List.mem_map_of_mem NoteEvent.pitch_contour hn)
      have hchn : List.Chain' (timeSep hop) n.pitch_contour :=
        chain'_timeSep_sublist hop hhop' hsubc hch3
      rw [hg.2.1, hg.2.2]
      have := ctHead_le_ctLast hop hhop' n.pitch_contour hg.1 hchn
      linarith
    have hchain_notes : List.Chain' (fun m n => m.end_time ≤ n.start_time) notes3 :=
      notes_end_start_chain hop notes3 h3.1 hch3
    have hpw : List.Pairwise (fun a b => a.end_time ≤ b.start_time) notes3 :=
      chain'_le_pairwise NoteEvent.start_time NoteEvent.end_time notes3
        hchain_notes hstart_end
    have hpw2 : List.Pairwise (fun a b => a.start_time ≤ b.start_time) notes3 :=
      List.Pairwise.imp_of_mem
        (fun ha _ hab => le_trans (hstart_end _ ha) hab) hpw
    rw [hseg_eq]
    exact ⟨hstart_end, hpw, hpw2⟩

/-- Two frames one hop apart at the default configuration. -/
def witnessFrames : List PitchFrame :=
  [{ time := 0, frequency := 220, confidence := 1, midi_pitch := 57 },
   { time := 1/100, frequency := 220, confidence := 1, midi_pitch := 57 }]

/-- Witness for `segment_notes_ordered_disjoint` at the default
configuration and a two-frame voiced input. -/
theorem segment_notes_ordered_disjoint_witness :
    ((0 : ℤ) ≤ ({} : TranscriptionConfig).hop_size_ms ∧
     List.Chain' (timeSep ((({} : TranscriptionConfig).hop_size_ms : ℚ) / 1000))
       witnessFrames) ∧
    ((∀ n ∈ segment {} witnessFrames, n.start_time ≤ n.end_time) ∧
     List.Pairwise (fun a b => a.end_time ≤ b.start_time)
       (segment {} witnessFrames) ∧
     List.Pairwise (fun a b => a.start_time ≤ b.start_time)
       (segment {} witnessFrames)) := by
  have hh : (0 : ℤ) ≤ ({} : TranscriptionConfig).hop_size_ms := by norm_num
  have hc : List.Chain' (timeSep ((({} : TranscriptionConfig).hop_size_ms : ℚ) / 1000))
      witnessFrames := by
    simp only [witnessFrames, List.chain'_cons, List.chain'_singleton, and_true,
      timeSep]
    norm_num
  exact ⟨⟨hh, hc⟩, segment_notes_ordered_disjoint {} witnessFrames hh hc⟩

end NoteSeg
